import Mathlib

/-!
Verification of the include-graph resolution engine of simple_include_counter
(src/main.rs), shallowly embedded in Lean 4.

Modelling conventions:
* Rust `&str` slices are `List Char`; all the lexer functions of the source
  only ever take suffixes of the original text, so list suffixes model them
  exactly.
* Rust functions that can panic are embedded in `Except LexPanic`; each
  constructor of `LexPanic` corresponds to one panic site of the source
  (`Option::unwrap` on `None` in `skip_whitespace`, and the explicit
  delimiter panic in `try_extract_include`).
* `char::is_whitespace` (Unicode `White_Space`) and `char::is_control`
  (Unicode `Cc`) are reproduced by explicit code-point tables.
* Loops whose termination is not structural (the main lexer loop, the
  peeling loop of the cycle check, the recursive closure collection) are
  given explicit fuel; at every call site the fuel used is provably at
  least the number of iterations the Rust loop performs, so the embedded
  function computes exactly what the source computes whenever the source
  terminates.
-/

/-- Unicode White_Space code points, as used by Rust `char::is_whitespace`. -/
def rust_is_whitespace (c : Char) : Bool :=
  let n := c.toNat
  (0x09 ≤ n && n ≤ 0x0D) || n = 0x20 || n = 0x85 || n = 0xA0 || n = 0x1680 ||
  (0x2000 ≤ n && n ≤ 0x200A) || n = 0x2028 || n = 0x2029 || n = 0x202F ||
  n = 0x205F || n = 0x3000

/-- Unicode Cc (control) code points, as used by Rust `char::is_control`. -/
def rust_is_control (c : Char) : Bool :=
  c.toNat ≤ 0x1F || (0x7F ≤ c.toNat && c.toNat ≤ 0x9F)

/-- The character class consumed by `skip_whitespace` in the source:
`c.is_whitespace() || c.is_control()`. -/
def is_ws (c : Char) : Bool :=
  rust_is_whitespace c || rust_is_control c

/-- The two panic sites of the lexer in the source. -/
inductive LexPanic where
  /-- `skip_whitespace` calls `s.chars().nth(0).unwrap()`; on an empty
  slice the unwrap panics. -/
  | emptyUnwrap : LexPanic
  /-- `try_extract_include` hits the `panic!` arm when the delimiter after
  the include keyword is neither `<` nor `"`. -/
  | unsupportedDelimiter : LexPanic
deriving DecidableEq

deriving instance DecidableEq for Except

/-- Prefix test on char lists (Rust `str::starts_with`). -/
def starts_with : List Char → List Char → Bool
  | [], _ => true
  | _ :: _, [] => false
  | p :: ps, c :: cs => p = c && starts_with ps cs

/-- First index at which `pat` occurs as a substring (Rust `str::find`
with a string pattern). -/
def first_sub_idx (pat : List Char) : List Char → Option Nat
  | [] => if pat.isEmpty then some 0 else none
  | c :: t => if starts_with pat (c :: t) then some 0
              else (first_sub_idx pat t).map (fun i => i + 1)

/-- Whether `pat` occurs as a substring of `s`. -/
def contains_sub (pat s : List Char) : Bool :=
  (first_sub_idx pat s).isSome

/-- Source `skip_whitespace`: reads the first character (panicking when the
slice is empty), and returns `&s[1..]` when it is whitespace or a control
character, `none` otherwise.  Caveat: `&s[1..]` in the source is a BYTE
slice, and `char::is_whitespace` / `char::is_control` accept characters
wider than one UTF-8 byte (U+00A0, U+0085, U+2028, U+0080..U+009F, ...);
on those the source panics with a char-boundary error instead of
consuming the character.  The model consumes one character, so it is
exact precisely on inputs whose whitespace/control characters are
single-byte (`Char.utf8Size = 1`).  Theorems that assert a successful run
of the lexer carry that restriction as a hypothesis; theorems that assert
a panic cover inputs on which the source panics in every case (on exotic
multi-byte whitespace only the panic site differs). -/
def skip_whitespace (s : List Char) : Except LexPanic (Option (List Char)) :=
  match s with
  | [] => .error .emptyUnwrap
  | c :: t => if is_ws c then .ok (some t) else .ok none

/-- The `while let Some(ss) = skip_whitespace(s)` loops of
`try_extract_include`, with the panic of `skip_whitespace` on the empty
slice propagated.  It inherits the caveat of `skip_whitespace`: on
multi-byte whitespace the source panics at the `&s[1..]` byte slice,
while the model consumes one character, so the model is exact on
single-byte whitespace and relabels the panic site otherwise. -/
def skip_ws_loop : List Char → Except LexPanic (List Char)
  | [] => .error .emptyUnwrap
  | c :: t => if is_ws c then skip_ws_loop t else .ok (c :: t)

/-- Source `skip_to_end_of_line`: everything after the first newline, or
the empty slice when there is none. -/
def skip_to_end_of_line (s : List Char) : List Char :=
  (s.dropWhile (fun c => c ≠ '\n')).drop 1

/-- Source `skip_comment`.  Note the two quirks of the source are kept:
the line-comment branch skips to end of line starting from `&s[1..]`
(dropping a single character), and the block-comment branch searches for
the closing sequence in the whole slice `s` (so that the `*` of the opener
can participate in the closer, as in `/*/`).  An unterminated block
comment consumes the remainder of the text. -/
def skip_comment (s : List Char) : Option (List Char) :=
  if starts_with ['/', '/'] s then
    some (skip_to_end_of_line (s.drop 1))
  else if starts_with ['/', '*'] s then
    some (match first_sub_idx ['*', '/'] s with
          | some idx => s.drop (idx + 2)
          | none => [])
  else none

/-- Source `extract_include_name`: the prefix of `s` before the first
occurrence of the closing delimiter, or `none` when the delimiter does not
occur. -/
def extract_include_name (s : List Char) (closing : Char) : Option (List Char) :=
  match first_sub_idx [closing] s with
  | some idx => some (s.take idx)
  | none => none

/-- A parsed include directive: target name and whether it used the
system (`<...>`) style. -/
structure IncludeInfo where
  name : List Char
  system : Bool
deriving DecidableEq

/-- Source `try_extract_include`.  Returns `.ok none` when the line is not
an include directive, `.ok (some info)` for a recognized directive, and an
error for the two panicking paths: end of text while skipping whitespace
after `#` or after the keyword, and an unrecognized delimiter after the
keyword. -/
def try_extract_include (s : List Char) : Except LexPanic (Option IncludeInfo) :=
  if starts_with ['#'] s then
    match skip_ws_loop (s.drop 1) with
    | .error e => .error e
    | .ok s2 =>
      if starts_with ['i', 'n', 'c', 'l', 'u', 'd', 'e'] s2 then
        match skip_ws_loop (s2.drop 7) with
        | .error e => .error e
        | .ok s4 =>
          if starts_with ['<'] s4 then
            match extract_include_name (s4.drop 1) '>' with
            | some nm => .ok (some ⟨nm, true⟩)
            | none => .ok none
          else if starts_with ['"'] s4 then
            match extract_include_name (s4.drop 1) '"' with
            | some nm => .ok (some ⟨nm, false⟩)
            | none => .ok none
          else .error .unsupportedDelimiter
      else .ok none
  else .ok none

/-- The main loop of source `parse_file_data`, with fuel.  Every iteration
of the Rust loop strictly shrinks the slice, so fuel `s.length` is always
sufficient (see `parse_loop_congr`).  The whitespace branch calls
`skip_whitespace` and so inherits its caveat: consuming a multi-byte
whitespace character panics in the source at the `&s[1..]` byte slice,
while the model drops one character; theorems asserting that
`parse_file_data` succeeds therefore restrict whitespace/control
characters of the input to single UTF-8 bytes. -/
def parse_loop : Nat → List Char → Except LexPanic (List IncludeInfo × Nat)
  | 0, _ => .ok ([], 0)
  | fuel + 1, s =>
    match s with
    | [] => .ok ([], 0)
    | c :: t =>
      if is_ws c then parse_loop fuel t
      else
        match skip_comment (c :: t) with
        | some s2 => parse_loop fuel s2
        | none =>
          match try_extract_include (c :: t) with
          | .error e => .error e
          | .ok inc =>
            match parse_loop fuel (skip_to_end_of_line (c :: t)) with
            | .error e => .error e
            | .ok (l, n) =>
              .ok (match inc with | some i => i :: l | none => l, n + 1)

/-- Source `parse_file_data`: the ordered include directives and the code
line count of a text, or the panic the lexer hits. -/
def parse_file_data (s : List Char) : Except LexPanic (List IncludeInfo × Nat) :=
  parse_loop s.length s

/-- One step of Rust `str::lines`: the current line (up to the first
newline, exclusive). -/
def line_take (s : List Char) : List Char :=
  s.takeWhile (fun c => c ≠ '\n')

/-- The list of lines of a text, with fuel (Rust `str::lines` semantics:
a trailing newline does not produce a final empty line; counting is not
affected by the `\r` trimming `str::lines` performs). -/
def lines_of_fuel : Nat → List Char → List (List Char)
  | 0, _ => []
  | fuel + 1, s =>
    match s with
    | [] => []
    | c :: t => line_take (c :: t) :: lines_of_fuel fuel (skip_to_end_of_line (c :: t))

/-- The list of lines of a text. -/
def lines_of (s : List Char) : List (List Char) :=
  lines_of_fuel s.length s

/-- Source `count_file_lines`: `data.lines().count()`. -/
def count_file_lines (s : List Char) : Nat :=
  (lines_of s).length

/-- One file record of the engine (source struct `FileInfo`).  Edge lists
`includes` / `included_by` are `Vec<usize>` in the source and are kept as
lists (the link step may push duplicates).  The closure fields are filled
from a `HashSet<usize>` whose iteration order is unspecified, and every
later use of them (sums, cardinalities, membership) is order-insensitive,
so they are modelled as `Finset Nat`. -/
structure FileInfo where
  name : List Char
  data : List Char
  stab_file : Bool
  source_file : Bool
  text_lines : Nat
  lines : Nat
  parsed_includes : List IncludeInfo
  includes : List Nat
  included_by : List Nat
  includes_indirect : Finset Nat
  included_by_indirect : Finset Nat
  lines_with_all_includes : Nat
  lines_contributes_total : Nat
  lines_contributes_self : Nat
deriving DecidableEq

/-- Source `FileInfo::new`. -/
def file_info_new (name data : List Char) (stab source_file : Bool) : FileInfo :=
  { name := name
    data := data
    stab_file := stab
    source_file := source_file
    text_lines := 0
    lines := 0
    parsed_includes := []
    includes := []
    included_by := []
    includes_indirect := ∅
    included_by_indirect := ∅
    lines_with_all_includes := 0
    lines_contributes_total := 0
    lines_contributes_self := 0 }

instance : Inhabited FileInfo := ⟨file_info_new [] [] false false⟩

/-- Indexing into the record collection (Rust `data[idx]`; in the source
every access is in bounds, so the default value is never produced at the
call sites modelled here). -/
def fget (data : List FileInfo) (i : Nat) : FileInfo :=
  data.getD i default

/-- Insertion into the set of mentioned include names
(`HashSet<String>::insert`).  The iteration order of a `HashSet` is
unspecified in Rust; the model fixes first-occurrence order.  Every
consumer (stub synthesis) only depends on the set of names, up to stub
ordering in the record collection. -/
def insert_name (acc : List (List Char)) (nm : List Char) : List (List Char) :=
  if nm ∈ acc then acc else acc ++ [nm]

/-- Recursive worker of `process_step_parse`: lexes each file in order,
filling `text_lines`, `lines` and `parsed_includes`, and accumulates the
set of mentioned include names.  A lexer panic aborts the whole step, as
in the source. -/
def parse_go (acc : List (List Char)) :
    List FileInfo → Except LexPanic (List FileInfo × List (List Char))
  | [] => .ok ([], acc)
  | f :: rest =>
    match parse_file_data f.data with
    | .error e => .error e
    | .ok (incs, clines) =>
      let f2 := { f with text_lines := count_file_lines f.data
                         lines := clines
                         parsed_includes := incs }
      match parse_go (incs.foldl (fun a ii => insert_name a ii.name) acc) rest with
      | .error e => .error e
      | .ok (rest2, names) => .ok (f2 :: rest2, names)

/-- Source `process_step_parse`. -/
def process_step_parse (data : List FileInfo) :
    Except LexPanic (List FileInfo × List (List Char)) :=
  parse_go [] data

/-- Source `process_step_generate_stubs`: for every mentioned name with no
matching record, push a stub record. -/
def process_step_generate_stubs (data : List FileInfo) (all : List (List Char)) :
    List FileInfo :=
  all.foldl
    (fun d nm =>
      if d.any (fun x => decide (x.name = nm)) then d
      else d ++ [file_info_new nm [] true false])
    data

/-- In-place update of the record at one index (Rust `&mut data[i]`). -/
def modify_at : List FileInfo → Nat → (FileInfo → FileInfo) → List FileInfo
  | [], _, _ => []
  | x :: t, 0, g => g x :: t
  | x :: t, i + 1, g => x :: modify_at t i g

/-- The name lookup of `process_step_link_include`
(`data.iter().enumerate().find_map(..)` followed by `unwrap`): index of
the first record with the given name.  `List.findIdx` returns the length
when no record matches; in the source that case panics, and after stub
synthesis it cannot occur. -/
def find_index_by_name (data : List FileInfo) (nm : List Char) : Nat :=
  data.findIdx (fun x => decide (x.name = nm))

/-- `included_by.push(idx)` on one record. -/
def push_ib (idx : Nat) (f : FileInfo) : FileInfo :=
  { f with included_by := f.included_by ++ [idx] }

/-- `includes.push(idx_that)` on one record. -/
def push_inc (idx_that : Nat) (f : FileInfo) : FileInfo :=
  { f with includes := f.includes ++ [idx_that] }

/-- The two pushes performed for one parsed include occurrence:
`data[idx_that].included_by.push(idx); data[idx].includes.push(idx_that)`. -/
def link_push (d : List FileInfo) (idx idx_that : Nat) : List FileInfo :=
  modify_at (modify_at d idx_that (push_ib idx)) idx (push_inc idx_that)

/-- Source `process_step_link_include`: the double loop over files and
their parsed include occurrences, resolving each occurrence by name and
pushing the pair of edges. -/
def process_step_link_include (data : List FileInfo) : List FileInfo :=
  (List.range data.length).foldl
    (fun d idx =>
      (List.range (fget d idx).parsed_includes.length).foldl
        (fun d2 idx2 =>
          let that_name := ((fget d2 idx).parsed_includes.getD idx2 ⟨[], false⟩).name
          link_push d2 idx (find_index_by_name d2 that_name))
        d)
    data

/-- The inner loop of `process_step_link_include` for one file `idx`,
processing its first `m` parsed include occurrences (named here for the
loop-invariant proofs; `process_step_link_include` is definitionally the
outer loop over this). -/
def link_inner (d : List FileInfo) (idx m : Nat) : List FileInfo :=
  (List.range m).foldl
    (fun d2 idx2 =>
      let that_name := ((fget d2 idx).parsed_includes.getD idx2 ⟨[], false⟩).name
      link_push d2 idx (find_index_by_name d2 that_name))
    d

/-- The outer loop of `process_step_link_include` over the first `K`
files. -/
def link_outer (data : List FileInfo) (K : Nat) : List FileInfo :=
  (List.range K).foldl
    (fun d idx => link_inner d idx (fget d idx).parsed_includes.length)
    data

/-- C2 as stated by the spec: after link resolution the derived
`includes` / `includedBy` relations are sets — a file occurs at most once
as a direct includee/includer of another, however many times it is
`#include`d. -/
def claim_c2_statement : Prop :=
  ∀ data : List FileInfo,
    (∀ f ∈ data, f.includes = [] ∧ f.included_by = []) →
    ∀ i j : Nat,
      ((fget (process_step_link_include data) i).includes).count j ≤ 1 ∧
      ((fget (process_step_link_include data) i).included_by).count j ≤ 1

/-- Concrete input refuting C2: file 1 `#include`s file 0 twice. -/
def c2_data : List FileInfo :=
  [file_info_new ['a'] [] false false,
   { file_info_new ['b'] [] false false with
       parsed_includes := [⟨['a'], false⟩, ⟨['a'], false⟩] }]

/-- Working node of the cycle check (source struct `CircCheck`). -/
structure CircCheck where
  idx : Nat
  included_by : List Nat
deriving DecidableEq

/-- The working copy the cycle check starts from: every record index with
a copy of its `included_by` list. -/
def circ_init (data : List FileInfo) : List CircCheck :=
  (List.range data.length).map (fun i => ⟨i, (fget data i).included_by⟩)

/-- The scan of one iteration of the peeling loop: find the first node
whose remaining in-list is empty and remove it, returning its index and
the remaining nodes (still unfiltered). -/
def peel_find : List CircCheck → Option (Nat × List CircCheck)
  | [] => none
  | c :: rest =>
    if c.included_by.isEmpty then some (c.idx, rest)
    else (peel_find rest).map (fun p => (p.1, c :: p.2))

/-- One iteration of the source peeling loop: remove the first node with
an empty in-list and strip its index from every remaining in-list
(`elem.included_by.retain(|x| *x != idx_this)`); `none` when the scan
finds nothing (`did_something == false`). -/
def peel_round (all : List CircCheck) : Option (List CircCheck) :=
  (peel_find all).map
    (fun p => p.2.map (fun c => ⟨c.idx, c.included_by.filter (fun x => x ≠ p.1)⟩))

/-- The peeling loop, with fuel.  Every round removes exactly one node, so
fuel `all.length` always reaches the fixed point (see `peel_loop_stops`). -/
def peel_loop : Nat → List CircCheck → List CircCheck
  | 0, all => all
  | fuel + 1, all =>
    match peel_round all with
    | none => all
    | some all2 => peel_loop fuel all2

/-- Source `process_step_check_circular`: `none` when the working set
peeled away completely, otherwise the witness pair built from the first
remaining node (`all[0].idx`, `all[0].included_by[0]`; the in-list of a
remaining node is provably nonempty, so the `headD` default is never
produced). -/
def process_step_check_circular (data : List FileInfo) : Option (Nat × Nat) :=
  match peel_loop data.length (circ_init data) with
  | [] => none
  | c :: _ => some (c.idx, c.included_by.headD 0)

/-- The set collected by the recursive closure walk
(`recurse_collect_includes` / `recurse_collect_included_by`), with fuel:
from `i`, every neighbour is inserted and recursed into.  The shared
accumulator of the source makes the result the union of the per-branch
sets, which is what the fold computes.  The source recursion has no fuel
and terminates exactly on walks that meet no cycle; fuel `data.length`
is sufficient on an acyclic graph (`reach_fuel_eq_reaches`). -/
def reach_fuel (adj : Nat → List Nat) : Nat → Nat → Finset Nat
  | 0, _ => ∅
  | fuel + 1, i =>
    (adj i).foldl (fun acc j => acc ∪ insert j (reach_fuel adj fuel j)) ∅

/-- Forward adjacency: the direct includes of a record. -/
def adj_includes (data : List FileInfo) (i : Nat) : List Nat :=
  (fget data i).includes

/-- Backward adjacency: the direct includers of a record. -/
def adj_included_by (data : List FileInfo) (i : Nat) : List Nat :=
  (fget data i).included_by

/-- Source `process_step_link_include_indirect`: both transitive closures
for every record. -/
def process_step_link_include_indirect (data : List FileInfo) : List FileInfo :=
  (List.range data.length).map
    (fun idx =>
      { fget data idx with
          includes_indirect := reach_fuel (adj_includes data) data.length idx
          included_by_indirect := reach_fuel (adj_included_by data) data.length idx })

/-- Source `process_step_calc_costs`: combined lines and the two
contribution metrics.  The source sums `data[*x].lines` over the
(duplicate-free) `includes_indirect` vector and multiplies by
`included_by_indirect.len()`. -/
def process_step_calc_costs (data : List FileInfo) : List FileInfo :=
  data.map
    (fun f =>
      let sum := Finset.sum f.includes_indirect (fun x => (fget data x).lines)
      { f with
          lines_with_all_includes := f.lines + sum
          lines_contributes_self := f.lines * f.included_by_indirect.card
          lines_contributes_total := (f.lines + sum) * f.included_by_indirect.card })

/-- Outcome of the pipeline (source `process_data` returns `false` after
printing the witness pair, `true` on success; the record collection is
mutated in place and is part of the outcome here). -/
inductive PipeResult where
  | cycle (a b : Nat) (data : List FileInfo) : PipeResult
  | success (data : List FileInfo) : PipeResult
deriving DecidableEq

/-- Source `process_data`: the strictly sequential pipeline.  On a cycle
witness the pipeline stops before the closure and cost steps. -/
def process_data (data : List FileInfo) : Except LexPanic PipeResult :=
  match process_step_parse data with
  | .error e => .error e
  | .ok (d1, names) =>
    match process_step_check_circular
        (process_step_link_include (process_step_generate_stubs d1 names)) with
    | some (a, b) =>
      .ok (.cycle a b (process_step_link_include (process_step_generate_stubs d1 names)))
    | none =>
      .ok (.success (process_step_calc_costs (process_step_link_include_indirect
        (process_step_link_include (process_step_generate_stubs d1 names)))))

/-- Whether every line of a text contains a character that the lexer does
not treat as whitespace (a non-blank line). -/
def all_lines_nonblank (s : List Char) : Prop :=
  ∀ l ∈ lines_of s, ∃ c ∈ l, is_ws c = false

instance all_lines_nonblank_dec (s : List Char) : Decidable (all_lines_nonblank s) :=
  List.decidableBAll _ _

/-- One step along an adjacency function: there is an edge from `i` to
`j`. -/
def adj_rel (adj : Nat → List Nat) (i j : Nat) : Prop :=
  j ∈ adj i

/-- Reachability in one or more steps along an adjacency function. -/
def reaches (adj : Nat → List Nat) : Nat → Nat → Prop :=
  Relation.TransGen (adj_rel adj)

/-- The graph of an adjacency function has no cycle. -/
def acyclic (adj : Nat → List Nat) : Prop :=
  ∀ i, ¬ reaches adj i i

/-- Every edge target of the adjacency function is below `n`. -/
def adj_bounded (adj : Nat → List Nat) (n : Nat) : Prop :=
  ∀ i j, j ∈ adj i → j < n

/-- A path of `len` edges of `adj` from `p 0` to `p len`. -/
def is_path (adj : Nat → List Nat) (p : Nat → Nat) (len : Nat) : Prop :=
  ∀ m < len, adj_rel adj (p m) (p (m + 1))

/-- The number of source files among a set of record indices
(the spec's `includedByIndirectSources` cardinality; the source has no
such field). -/
def sources_card (d : List FileInfo) (s : Finset Nat) : Nat :=
  (s.filter (fun j => (fget d j).source_file = true)).card

/-- C1 as stated by the spec: after the pipeline succeeds, a non-source
file is weighted by the number of distinct source files among its
indirect includers, and a source file has weight exactly one. -/
def claim_c1_statement : Prop :=
  ∀ input out : List FileInfo,
    process_data input = .ok (.success out) →
    ∀ i : Nat, i < out.length →
      ((fget out i).source_file = false →
        (fget out i).lines_contributes_self
            = (fget out i).lines * sources_card out (fget out i).included_by_indirect ∧
        (fget out i).lines_contributes_total
            = (fget out i).lines_with_all_includes
              * sources_card out (fget out i).included_by_indirect) ∧
      ((fget out i).source_file = true →
        (fget out i).lines_contributes_self = (fget out i).lines ∧
        (fget out i).lines_contributes_total = (fget out i).lines_with_all_includes)

/-- Concrete input refuting C1: a single source file with one code line
and no includes. -/
def c1_data : List FileInfo :=
  [file_info_new ['c'] ['x'] false true]

/-- The pipeline output on `c1_data`: one code line, weight
`|includedByIndirect| = 0`, hence zero contributions. -/
def c1_out : List FileInfo :=
  [{ file_info_new ['c'] ['x'] false true with
       text_lines := 1
       lines := 1
       lines_with_all_includes := 1 }]

/-- Concrete post-closure data for the cost-aggregation witness: record 0
has three indirect includes with 3, 4 and 5 code lines. -/
def c5_data : List FileInfo :=
  [{ file_info_new ['s'] [] false true with lines := 2, includes_indirect := {1, 2, 3} },
   { file_info_new ['a'] [] false false with lines := 3 },
   { file_info_new ['b'] [] false false with lines := 4 },
   { file_info_new ['h'] [] false false with lines := 5 }]

/-- The closure and cost fields of a record are at their `FileInfo::new`
initial values (unset). -/
def aux_fields_initial (f : FileInfo) : Prop :=
  f.includes_indirect = ∅ ∧ f.included_by_indirect = ∅ ∧
  f.lines_with_all_includes = 0 ∧ f.lines_contributes_total = 0 ∧
  f.lines_contributes_self = 0

instance aux_fields_initial_dec (f : FileInfo) : Decidable (aux_fields_initial f) :=
  inferInstanceAs (Decidable (_ ∧ _ ∧ _ ∧ _ ∧ _))

/-- Concrete two-file input whose texts include each other, for the
pipeline cycle witness. -/
def c6_input : List FileInfo :=
  [file_info_new ['a'] ['#', 'i', 'n', 'c', 'l', 'u', 'd', 'e', ' ', '"', 'b', '"'] false false,
   file_info_new ['b'] ['#', 'i', 'n', 'c', 'l', 'u', 'd', 'e', ' ', '"', 'a', '"'] false false]

/-- The collection state at which the pipeline halts on `c6_input`:
parsed and linked, closure and cost fields untouched. -/
def c6_linked : List FileInfo :=
  [{ file_info_new ['a'] ['#', 'i', 'n', 'c', 'l', 'u', 'd', 'e', ' ', '"', 'b', '"'] false false with
       text_lines := 1, lines := 1, parsed_includes := [⟨['b'], false⟩],
       includes := [1], included_by := [1] },
   { file_info_new ['b'] ['#', 'i', 'n', 'c', 'l', 'u', 'd', 'e', ' ', '"', 'a', '"'] false false with
       text_lines := 1, lines := 1, parsed_includes := [⟨['a'], false⟩],
       includes := [0], included_by := [0] }]

/-- The indices of the nodes still present in a working set of the
peeling loop. -/
def circ_idxs (all : List CircCheck) : List Nat :=
  all.map (fun c => c.idx)

/-- The in-list of a record in the original collection (what the working
copies of the cycle check filter down). -/
def orig_ib (data : List FileInfo) (x : Nat) : List Nat :=
  (fget data x).included_by

/-- Invariant of the peeling loop: the working node indices are distinct
and valid, and every working in-list is the original in-list filtered to
the still-present nodes. -/
def peel_inv (data : List FileInfo) (all : List CircCheck) : Prop :=
  (circ_idxs all).Nodup ∧
  (∀ x ∈ circ_idxs all, x < data.length) ∧
  (∀ c ∈ all, c.included_by
      = (orig_ib data c.idx).filter (fun y => decide (y ∈ circ_idxs all)))

/-- The indices remaining when the peeling loop of the cycle check stops. -/
def final_idxs (data : List FileInfo) : List Nat :=
  circ_idxs (peel_loop data.length (circ_init data))

/-- Concrete two-record cycle used as cycle-check witness: each record is
included by the other. -/
def cyc2_data : List FileInfo :=
  [{ file_info_new ['a'] [] false false with includes := [1], included_by := [1] },
   { file_info_new ['b'] [] false false with includes := [0], included_by := [0] }]

/-- Concrete three-record chain used as closure witness: record 0 includes
record 1, record 1 includes record 2 (with the symmetric back edges). -/
def chain_data : List FileInfo :=
  [{ file_info_new ['a'] [] false true with includes := [1], included_by := [] },
   { file_info_new ['b'] [] false false with includes := [2], included_by := [0] },
   { file_info_new ['g'] [] false false with includes := [], included_by := [1] }]

/-- C7 as stated by the spec: for a text with no comments on which the
lexer records no include directives, the code line count equals the
physical line count. -/
def claim_c7_statement : Prop :=
  ∀ (s : List Char) (incs : List IncludeInfo) (n : Nat),
    contains_sub ['/', '/'] s = false →
    contains_sub ['/', '*'] s = false →
    parse_file_data s = .ok (incs, n) →
    incs = [] →
    n = count_file_lines s

theorem skip_to_eol_suffix (s : List Char) : skip_to_end_of_line s <:+ s := by
  unfold skip_to_end_of_line
  exact (List.drop_suffix 1 _).trans (List.dropWhile_suffix _)

theorem skip_to_eol_length_le (s : List Char) :
    (skip_to_end_of_line s).length ≤ s.length :=
  (skip_to_eol_suffix s).sublist.length_le

theorem skip_to_eol_length_lt (s : List Char) (h : s ≠ []) :
    (skip_to_end_of_line s).length < s.length := by
  have hle : (s.dropWhile (fun c => c ≠ '\n')).length ≤ s.length :=
    (List.dropWhile_suffix _).sublist.length_le
  have hpos : 0 < s.length := List.length_pos.mpr h
  unfold skip_to_end_of_line
  rw [List.length_drop]
  omega

theorem skip_comment_length_lt (s s2 : List Char) (h : skip_comment s = some s2) :
    s2.length < s.length := by
  unfold skip_comment at h
  by_cases h1 : starts_with ['/', '/'] s = true
  · rw [if_pos h1] at h
    cases s with
    | nil => simp [starts_with] at h1
    | cons c t =>
      have : s2 = skip_to_end_of_line t := by
        simpa using h.symm
      subst this
      calc (skip_to_end_of_line t).length ≤ t.length := skip_to_eol_length_le t
      _ < (c :: t).length := by simp
  · rw [if_neg h1] at h
    by_cases h2 : starts_with ['/', '*'] s = true
    · rw [if_pos h2] at h
      have hs : s ≠ [] := by
        cases s with
        | nil => simp [starts_with] at h2
        | cons c t => simp
      cases hidx : first_sub_idx ['*', '/'] s with
      | none =>
        rw [hidx] at h
        simp only [Option.some.injEq] at h
        subst h
        simpa using List.length_pos.mpr hs
      | some idx =>
        rw [hidx] at h
        simp only [Option.some.injEq] at h
        subst h
        rw [List.length_drop]
        exact Nat.sub_lt (List.length_pos.mpr hs) (Nat.succ_pos _)
    · rw [if_neg h2] at h
      exact absurd h (by simp)

theorem parse_loop_congr :
    ∀ f1 : Nat, ∀ f2 : Nat, ∀ s : List Char,
      s.length ≤ f1 → s.length ≤ f2 → parse_loop f1 s = parse_loop f2 s := by
  intro f1
  induction f1 with
  | zero =>
    intro f2 s h1 _
    have : s = [] := List.length_eq_zero.mp (Nat.le_zero.mp h1)
    subst this
    cases f2 <;> rfl
  | succ f ih =>
    intro f2 s h1 h2
    cases s with
    | nil => cases f2 <;> rfl
    | cons c t =>
      cases f2 with
      | zero => exact absurd h2 (by simp)
      | succ f2' =>
        simp only [parse_loop]
        simp only [List.length_cons] at h1 h2
        have ht1 : t.length ≤ f := by omega
        have ht2 : t.length ≤ f2' := by omega
        by_cases hw : is_ws c = true
        · rw [if_pos hw, if_pos hw]
          exact ih f2' t ht1 ht2
        · rw [if_neg hw, if_neg hw]
          cases hc : skip_comment (c :: t) with
          | some s2 =>
            have hlt := skip_comment_length_lt _ _ hc
            simp only [List.length_cons] at hlt
            exact ih f2' s2 (by omega) (by omega)
          | none =>
            cases try_extract_include (c :: t) with
            | error e => rfl
            | ok inc =>
              have hlt : (skip_to_end_of_line (c :: t)).length < (c :: t).length :=
                skip_to_eol_length_lt _ (by simp)
              simp only [List.length_cons] at hlt
              rw [ih f2' (skip_to_end_of_line (c :: t)) (by omega) (by omega)]

theorem parse_nil : parse_file_data [] = .ok ([], 0) := rfl

theorem parse_ws (c : Char) (t : List Char) (h : is_ws c = true) :
    parse_file_data (c :: t) = parse_file_data t := by
  unfold parse_file_data
  simp only [List.length_cons, parse_loop, if_pos h]

theorem parse_comment (c : Char) (t s2 : List Char)
    (hw : is_ws c = false) (hc : skip_comment (c :: t) = some s2) :
    parse_file_data (c :: t) = parse_file_data s2 := by
  unfold parse_file_data
  simp only [List.length_cons, parse_loop]
  rw [if_neg (by simp [hw]), hc]
  have hlt := skip_comment_length_lt _ _ hc
  simp only [List.length_cons] at hlt
  exact parse_loop_congr _ _ _ (by omega) le_rfl

theorem parse_code (c : Char) (t : List Char)
    (hw : is_ws c = false) (hc : skip_comment (c :: t) = none) :
    parse_file_data (c :: t)
      = match try_extract_include (c :: t) with
        | .error e => .error e
        | .ok inc =>
          match parse_file_data (skip_to_end_of_line (c :: t)) with
          | .error e => .error e
          | .ok (l, n) =>
            .ok (match inc with | some i => i :: l | none => l, n + 1) := by
  unfold parse_file_data
  simp only [List.length_cons, parse_loop]
  rw [if_neg (by simp [hw]), hc]
  cases try_extract_include (c :: t) with
  | error e => rfl
  | ok inc =>
    have hlt : (skip_to_end_of_line (c :: t)).length < (c :: t).length :=
      skip_to_eol_length_lt _ (by simp)
    simp only [List.length_cons] at hlt
    rw [parse_loop_congr t.length (skip_to_end_of_line (c :: t)).length
      (skip_to_end_of_line (c :: t)) (by omega) le_rfl]

theorem lines_of_fuel_congr :
    ∀ f1 : Nat, ∀ f2 : Nat, ∀ s : List Char,
      s.length ≤ f1 → s.length ≤ f2 → lines_of_fuel f1 s = lines_of_fuel f2 s := by
  intro f1
  induction f1 with
  | zero =>
    intro f2 s h1 _
    have : s = [] := List.length_eq_zero.mp (Nat.le_zero.mp h1)
    subst this
    cases f2 <;> rfl
  | succ f ih =>
    intro f2 s h1 h2
    cases s with
    | nil => cases f2 <;> rfl
    | cons c t =>
      cases f2 with
      | zero => exact absurd h2 (by simp)
      | succ f2' =>
        simp only [lines_of_fuel]
        have hlt : (skip_to_end_of_line (c :: t)).length < (c :: t).length :=
          skip_to_eol_length_lt _ (by simp)
        simp only [List.length_cons] at hlt h1 h2
        rw [ih f2' (skip_to_end_of_line (c :: t)) (by omega) (by omega)]

theorem lines_of_cons (c : Char) (t : List Char) :
    lines_of (c :: t)
      = line_take (c :: t) :: lines_of (skip_to_end_of_line (c :: t)) := by
  unfold lines_of
  simp only [List.length_cons, lines_of_fuel]
  have hlt : (skip_to_end_of_line (c :: t)).length < (c :: t).length :=
    skip_to_eol_length_lt _ (by simp)
  simp only [List.length_cons] at hlt
  rw [lines_of_fuel_congr t.length (skip_to_end_of_line (c :: t)).length
    (skip_to_end_of_line (c :: t)) (by omega) le_rfl]

theorem count_cons (c : Char) (t : List Char) :
    count_file_lines (c :: t) = 1 + count_file_lines (skip_to_end_of_line (c :: t)) := by
  unfold count_file_lines
  rw [lines_of_cons]
  simp [Nat.add_comm]

theorem starts_with_self_append : ∀ p l : List Char, starts_with p (p ++ l) = true := by
  intro p
  induction p with
  | nil => intro l; rfl
  | cons c t ih => intro l; simp [starts_with, ih]

theorem contains_of_starts_with (pat s : List Char) (h : starts_with pat s = true) :
    contains_sub pat s = true := by
  cases s with
  | nil =>
    cases pat with
    | nil => rfl
    | cons c t => simp [starts_with] at h
  | cons c t => simp [contains_sub, first_sub_idx, h]

theorem contains_sub_cons (pat : List Char) (c : Char) (t : List Char)
    (h : contains_sub pat t = true) : contains_sub pat (c :: t) = true := by
  simp only [contains_sub, first_sub_idx] at h ⊢
  by_cases hs : starts_with pat (c :: t) = true
  · simp [hs]
  · simp only [if_neg hs]
    simpa using h

theorem contains_sub_suffix (pat t s : List Char) (hsuf : t <:+ s)
    (h : contains_sub pat t = true) : contains_sub pat s = true := by
  induction s with
  | nil =>
    have : t = [] := List.suffix_nil.mp hsuf
    subst this; exact h
  | cons c s2 ih =>
    rcases List.suffix_cons_iff.mp hsuf with h1 | h2
    · subst h1; exact h
    · exact contains_sub_cons pat c s2 (ih h2)

theorem skip_ws_loop_append_ws (t l : List Char) (ht : ∀ x ∈ t, is_ws x = true) :
    skip_ws_loop (t ++ l) = skip_ws_loop l := by
  induction t with
  | nil => rfl
  | cons c t2 ih =>
    have hc : is_ws c = true := ht c (by simp)
    simp only [List.cons_append, skip_ws_loop, if_pos hc]
    exact ih (fun x hx => ht x (by simp [hx]))

theorem skip_ws_loop_all_ws (t : List Char) (ht : ∀ x ∈ t, is_ws x = true) :
    skip_ws_loop t = .error .emptyUnwrap := by
  induction t with
  | nil => rfl
  | cons c t2 ih =>
    have hc : is_ws c = true := ht c (by simp)
    simp only [skip_ws_loop, if_pos hc]
    exact ih (fun x hx => ht x (by simp [hx]))

theorem skip_ws_loop_not_ws (c : Char) (r : List Char) (h : is_ws c = false) :
    skip_ws_loop (c :: r) = .ok (c :: r) := by
  simp [skip_ws_loop, h]


/-- C8: if a block-comment opener is never matched by a close sequence in
the rest of the text, the lexer silently consumes the remainder: from such
a position it returns successfully with no directives and no further code
lines; in particular a file that is entirely one unterminated block
comment has `codeLineCount = 0`. -/
theorem claim_c8_unterminated_block_comment (s : List Char)
    (h1 : starts_with ['/', '*'] s = true)
    (h2 : contains_sub ['*', '/'] s = false) :
    parse_file_data s = .ok ([], 0) := by
  cases s with
  | nil => simp [starts_with] at h1
  | cons c t =>
    cases t with
    | nil =>
      simp only [starts_with] at h1
      simp at h1
    | cons c2 u =>
      simp only [starts_with, Bool.and_eq_true, decide_eq_true_eq] at h1
      obtain ⟨rfl, rfl, -⟩ : '/' = c ∧ '*' = c2 ∧ True := by
        refine ⟨h1.1, h1.2.1, trivial⟩
      have hcom : skip_comment ('/' :: '*' :: u) = some [] := by
        unfold skip_comment
        rw [if_neg (by simp [starts_with]), if_pos (by simp [starts_with])]
        have : first_sub_idx ['*', '/'] ('/' :: '*' :: u) = none := by
          cases hfi : first_sub_idx ['*', '/'] ('/' :: '*' :: u) with
          | none => rfl
          | some idx =>
            rw [contains_sub, hfi] at h2
            simp at h2
        rw [this]
      rw [parse_comment '/' ('*' :: u) [] (by decide) hcom]
      exact parse_nil

/-- Closed witness for C8 at the concrete text `/* x`. -/
theorem claim_c8_witness :
    starts_with ['/', '*'] ['/', '*', ' ', 'x'] = true ∧
      parse_file_data ['/', '*', ' ', 'x'] = .ok ([], 0) :=
  ⟨by decide, claim_c8_unterminated_block_comment ['/', '*', ' ', 'x'] (by decide) (by decide)⟩

/-- C9: a line that begins with the directive marker and the include
keyword, where the first character after the keyword (after optional
whitespace) is neither `<` nor `"`, makes the lexer hit the unrecoverable
`panic!` arm instead of recording no directive and continuing. -/
theorem claim_c9_bad_delimiter_panics (t u r : List Char) (c : Char)
    (ht : ∀ x ∈ t, is_ws x = true) (hu : ∀ x ∈ u, is_ws x = true)
    (hc : is_ws c = false) (hlt : c ≠ '<') (hq : c ≠ '"') :
    try_extract_include
        ('#' :: (t ++ (['i', 'n', 'c', 'l', 'u', 'd', 'e'] ++ (u ++ c :: r))))
      = .error .unsupportedDelimiter := by
  have e1 : skip_ws_loop (t ++ 'i' :: 'n' :: 'c' :: 'l' :: 'u' :: 'd' :: 'e' :: (u ++ c :: r))
      = .ok ('i' :: 'n' :: 'c' :: 'l' :: 'u' :: 'd' :: 'e' :: (u ++ c :: r)) := by
    rw [skip_ws_loop_append_ws t _ ht]
    exact skip_ws_loop_not_ws 'i' _ (by decide)
  have e2 : skip_ws_loop (u ++ c :: r) = .ok (c :: r) := by
    rw [skip_ws_loop_append_ws u _ hu]
    exact skip_ws_loop_not_ws c r hc
  have hbr1 : starts_with ['<'] (c :: r) = false := by
    simp [starts_with, Ne.symm hlt]
  have hbr2 : starts_with ['"'] (c :: r) = false := by
    simp [starts_with, Ne.symm hq]
  unfold try_extract_include
  rw [if_pos (by simp [starts_with])]
  simp only [List.drop_succ_cons, List.drop_zero, List.cons_append, List.nil_append]
  simp only [e1]
  rw [if_pos (by simp [starts_with])]
  simp only [List.drop_succ_cons, List.drop_zero]
  simp only [e2]
  rw [if_neg (by simp [hbr1]), if_neg (by simp [hbr2])]

/-- Closed witness for C9 at the concrete line `#include x`. -/
theorem claim_c9_witness :
    is_ws 'x' = false ∧
      try_extract_include ['#', 'i', 'n', 'c', 'l', 'u', 'd', 'e', ' ', 'x']
        = .error .unsupportedDelimiter :=
  ⟨by decide,
    claim_c9_bad_delimiter_panics [] [' '] [] 'x'
      (by intro x hx; cases hx) (by decide) (by decide) (by decide) (by decide)⟩

/-- C10: the lexer is partial at end of text.  `skip_whitespace` itself
panics on the empty slice, and whenever the text ends right after the
directive marker (possibly followed only by whitespace), or right after
the include keyword (possibly followed only by whitespace),
`try_extract_include` hits that panic; a file ending in such a line makes
the whole lexer panic. -/
theorem claim_c10_eof_panics (t u : List Char)
    (ht : ∀ x ∈ t, is_ws x = true) (hu : ∀ x ∈ u, is_ws x = true) :
    skip_whitespace [] = .error .emptyUnwrap ∧
      try_extract_include ('#' :: t) = .error .emptyUnwrap ∧
      try_extract_include ('#' :: (t ++ (['i', 'n', 'c', 'l', 'u', 'd', 'e'] ++ u)))
        = .error .emptyUnwrap ∧
      parse_file_data ('#' :: t) = .error .emptyUnwrap := by
  have h1 : try_extract_include ('#' :: t) = .error .emptyUnwrap := by
    unfold try_extract_include
    rw [if_pos (by simp [starts_with])]
    simp only [List.drop_succ_cons, List.drop_zero]
    rw [skip_ws_loop_all_ws t ht]
  refine ⟨rfl, h1, ?_, ?_⟩
  · have e1 : skip_ws_loop (t ++ 'i' :: 'n' :: 'c' :: 'l' :: 'u' :: 'd' :: 'e' :: u)
        = .ok ('i' :: 'n' :: 'c' :: 'l' :: 'u' :: 'd' :: 'e' :: u) := by
      rw [skip_ws_loop_append_ws t _ ht]
      exact skip_ws_loop_not_ws 'i' _ (by decide)
    unfold try_extract_include
    rw [if_pos (by simp [starts_with])]
    simp only [List.drop_succ_cons, List.drop_zero, List.cons_append, List.nil_append]
    simp only [e1]
    rw [if_pos (by simp [starts_with])]
    simp only [List.drop_succ_cons, List.drop_zero]
    simp only [skip_ws_loop_all_ws u hu]
  · have hcom : skip_comment ('#' :: t) = none := by
      unfold skip_comment
      rw [if_neg (by simp [starts_with]), if_neg (by simp [starts_with])]
    rw [parse_code '#' t (by decide) hcom, h1]

/-- Closed witness for C10 at the concrete texts `# ` and `#include`. -/
theorem claim_c10_witness :
    try_extract_include ['#', ' '] = .error .emptyUnwrap ∧
      try_extract_include ['#', 'i', 'n', 'c', 'l', 'u', 'd', 'e'] = .error .emptyUnwrap ∧
      parse_file_data ['#', ' '] = .error .emptyUnwrap := by
  have h1 := claim_c10_eof_panics [' '] [] (by decide) (by intro x hx; cases hx)
  have h2 := claim_c10_eof_panics [] [] (by intro x hx; cases hx) (by intro x hx; cases hx)
  exact ⟨h1.2.1, h2.2.2.1, h1.2.2.2⟩

theorem parse_count_aux : ∀ n : Nat, ∀ s : List Char, s.length ≤ n →
    '#' ∉ s → contains_sub ['/', '/'] s = false → contains_sub ['/', '*'] s = false →
    all_lines_nonblank s → parse_file_data s = .ok ([], count_file_lines s) := by
  intro n
  induction n with
  | zero =>
    intro s hlen _ _ _ _
    have : s = [] := List.length_eq_zero.mp (Nat.le_zero.mp hlen)
    subst this
    rfl
  | succ n ih =>
    intro s hlen hh hc1 hc2 hnb
    cases s with
    | nil => rfl
    | cons c t =>
      simp only [List.length_cons] at hlen
      by_cases hw : is_ws c = true
      · -- a whitespace character is consumed without counting
        have hline := lines_of_cons c t
        have hcnl : c ≠ '\n' := by
          intro hceq
          subst hceq
          have h1 := hnb (line_take ('\n' :: t)) (by rw [hline]; exact List.mem_cons_self _ _)
          have hlt0 : line_take ('\n' :: t) = [] := by simp [line_take]
          rw [hlt0] at h1
          obtain ⟨x, hx, -⟩ := h1
          cases hx
        have htne : t ≠ [] := by
          intro hteq
          subst hteq
          have h1 := hnb (line_take [c]) (by rw [hline]; exact List.mem_cons_self _ _)
          have hlt1 : line_take [c] = [c] := by simp [line_take, hcnl]
          rw [hlt1] at h1
          obtain ⟨x, hx, hxw⟩ := h1
          simp at hx
          subst hx
          rw [hw] at hxw
          cases hxw
        have hlt : line_take (c :: t) = c :: line_take t := by
          simp [line_take, hcnl]
        have heol : skip_to_end_of_line (c :: t) = skip_to_end_of_line t := by
          unfold skip_to_end_of_line
          rw [List.dropWhile_cons_of_pos (by simp [hcnl])]
        obtain ⟨c2, t2, rfl⟩ : ∃ c2 t2, t = c2 :: t2 := by
          cases t with
          | nil => exact absurd rfl htne
          | cons c2 t2 => exact ⟨c2, t2, rfl⟩
        have hnbt : all_lines_nonblank (c2 :: t2) := by
          intro l hl
          rw [lines_of_cons] at hl
          rcases List.mem_cons.mp hl with h1 | h2
          · -- the first line of t: strip the leading whitespace character
            have hfull := hnb (line_take (c :: c2 :: t2))
              (by rw [hline]; exact List.mem_cons_self _ _)
            rw [hlt] at hfull
            obtain ⟨x, hx, hxw⟩ := hfull
            rcases List.mem_cons.mp hx with rfl | hx2
            · rw [hw] at hxw; cases hxw
            · exact ⟨x, by rw [h1]; exact hx2, hxw⟩
          · exact hnb l (by rw [hline, heol]; exact List.mem_cons_of_mem _ h2)
        have hcount : count_file_lines (c :: c2 :: t2) = count_file_lines (c2 :: t2) := by
          rw [count_cons, heol, count_cons]
        rw [parse_ws c _ hw, hcount]
        refine ih (c2 :: t2) (by simpa using hlen)
          (fun hmem => hh (List.mem_cons_of_mem _ hmem)) ?_ ?_ hnbt
        · by_cases h : contains_sub ['/', '/'] (c2 :: t2) = true
          · rw [contains_sub_cons _ c _ h] at hc1; cases hc1
          · simpa using h
        · by_cases h : contains_sub ['/', '*'] (c2 :: t2) = true
          · rw [contains_sub_cons _ c _ h] at hc2; cases hc2
          · simpa using h
      · -- a code line: count it and skip to the end of the line
        have hwf : is_ws c = false := by simpa using hw
        have hnc : c ≠ '#' := fun hceq => hh (by rw [hceq]; exact List.mem_cons_self _ _)
        have hcom : skip_comment (c :: t) = none := by
          unfold skip_comment
          rw [if_neg, if_neg]
          · intro hsw
            rw [contains_of_starts_with _ _ hsw] at hc2
            cases hc2
          · intro hsw
            rw [contains_of_starts_with _ _ hsw] at hc1
            cases hc1
        have hext : try_extract_include (c :: t) = .ok none := by
          unfold try_extract_include
          rw [if_neg]
          simp [starts_with, Ne.symm hnc]
        have hsuf := skip_to_eol_suffix (c :: t)
        have hih : parse_file_data (skip_to_end_of_line (c :: t))
            = .ok ([], count_file_lines (skip_to_end_of_line (c :: t))) := by
          refine ih _ ?_ (fun hmem => hh (hsuf.sublist.subset hmem)) ?_ ?_ ?_
          · have := skip_to_eol_length_lt (c :: t) (by simp)
            simp only [List.length_cons] at this
            omega
          · by_cases h : contains_sub ['/', '/'] (skip_to_end_of_line (c :: t)) = true
            · rw [contains_sub_suffix _ _ _ hsuf h] at hc1; cases hc1
            · simpa using h
          · by_cases h : contains_sub ['/', '*'] (skip_to_end_of_line (c :: t)) = true
            · rw [contains_sub_suffix _ _ _ hsuf h] at hc2; cases hc2
            · simpa using h
          · intro l hl
            exact hnb l (by rw [lines_of_cons]; exact List.mem_cons_of_mem _ hl)
        rw [parse_code c t hwf hcom, hext, hih, count_cons]
        simp [Nat.add_comm]

/-- C7 is false as stated: the text consisting of a single blank line has
one physical line, no comments and no directives, but zero code lines
(blank lines are skipped by the lexer and never counted). -/
theorem claim_c7_counterexample : ¬ claim_c7_statement := by
  intro h
  have := h [' '] [] 0 (by decide) (by decide) (by decide) rfl
  exact absurd this (by decide)

/-- C7 amended: for a text with no directive marker, no comment openers,
no blank lines (every physical line contains a character the lexer does
not treat as whitespace), and whose whitespace/control characters are all
single UTF-8 bytes, the lexer succeeds with no directives and
`codeLineCount = textLineCount`.  The last hypothesis is forced by the
source, not by the model: on a text such as `"\u{A0}a"` the source's
`skip_whitespace` panics at the `&s[1..]` byte slice inside the two-byte
character U+00A0, so the lexer does not succeed there; on the restricted
domain the embedding and the source agree step for step, every slice
taken being at a character boundary. -/
theorem claim_c7_amended (s : List Char)
    (hh : '#' ∉ s)
    (hc1 : contains_sub ['/', '/'] s = false)
    (hc2 : contains_sub ['/', '*'] s = false)
    (hnb : all_lines_nonblank s)
    (_hws : ∀ c ∈ s, is_ws c = true → c.utf8Size = 1) :
    parse_file_data s = .ok ([], count_file_lines s) :=
  parse_count_aux s.length s le_rfl hh hc1 hc2 hnb

/-- Closed witness for the amended C7 at the concrete text `ab\ncd`. -/
theorem claim_c7_amended_witness :
    parse_file_data ['a', 'b', '\n', 'c', 'd'] = .ok ([], count_file_lines ['a', 'b', '\n', 'c', 'd']) :=
  claim_c7_amended ['a', 'b', '\n', 'c', 'd'] (by decide) (by decide) (by decide) (by decide)
    (by decide)

theorem reach_fuel_mem (adj : Nat → List Nat) (fuel i j : Nat) :
    j ∈ reach_fuel adj (fuel + 1) i ↔ ∃ m ∈ adj i, j = m ∨ j ∈ reach_fuel adj fuel m := by
  have base : ∀ (l : List Nat) (S : Finset Nat),
      (j ∈ l.foldl (fun acc x => acc ∪ insert x (reach_fuel adj fuel x)) S) ↔
        j ∈ S ∨ ∃ m ∈ l, j = m ∨ j ∈ reach_fuel adj fuel m := by
    intro l
    induction l with
    | nil => intro S; simp
    | cons x l2 ih =>
      intro S
      simp only [List.foldl_cons, ih, Finset.mem_union, Finset.mem_insert, List.mem_cons]
      constructor
      · rintro ((h | h | h) | ⟨m, hm, hh⟩)
        · exact Or.inl h
        · exact Or.inr ⟨x, Or.inl rfl, Or.inl h⟩
        · exact Or.inr ⟨x, Or.inl rfl, Or.inr h⟩
        · exact Or.inr ⟨m, Or.inr hm, hh⟩
      · rintro (h | ⟨m, (rfl | hm), hh⟩)
        · exact Or.inl (Or.inl h)
        · rcases hh with h | h
          · exact Or.inl (Or.inr (Or.inl h))
          · exact Or.inl (Or.inr (Or.inr h))
        · exact Or.inr ⟨m, hm, hh⟩
  rw [reach_fuel, base]
  simp

theorem reach_fuel_sound (adj : Nat → List Nat) :
    ∀ fuel i j, j ∈ reach_fuel adj fuel i → reaches adj i j := by
  intro fuel
  induction fuel with
  | zero => intro i j h; simp [reach_fuel] at h
  | succ f ih =>
    intro i j h
    rw [reach_fuel_mem] at h
    obtain ⟨m, hm, h2 | h2⟩ := h
    · subst h2
      exact Relation.TransGen.single hm
    · exact Relation.TransGen.head hm (ih m j h2)

theorem reaches_to_path (adj : Nat → List Nat) (i j : Nat) (h : reaches adj i j) :
    ∃ (len : Nat) (p : Nat → Nat), 1 ≤ len ∧ p 0 = i ∧ p len = j ∧ is_path adj p len := by
  induction h with
  | single hb =>
    rename_i b
    refine ⟨1, fun k => if k = 0 then i else b, le_rfl, by simp, by simp, ?_⟩
    intro m hm
    interval_cases m
    simpa [adj_rel] using hb
  | tail hab hbc ih =>
    rename_i b c
    obtain ⟨len, p, hlen, hp0, hplen, hpath⟩ := ih
    refine ⟨len + 1, fun k => if k ≤ len then p k else c, by omega,
      by simp [hp0], by simp, ?_⟩
    intro m hm
    by_cases hcase : m < len
    · have h1 : m ≤ len := by omega
      have h2 : m + 1 ≤ len := by omega
      simpa [h1, h2] using hpath m hcase
    · have hm2 : m = len := by omega
      subst hm2
      simp only [if_pos (le_refl m), if_neg (by omega : ¬ m + 1 ≤ m), hplen]
      exact hbc

theorem path_seg (adj : Nat → List Nat) (p : Nat → Nat) (len : Nat)
    (hpath : is_path adj p len) :
    ∀ s t : Nat, s < t → t ≤ len → Relation.TransGen (adj_rel adj) (p s) (p t) := by
  intro s t
  induction t with
  | zero => intro hst _; omega
  | succ t ih =>
    intro hst htlen
    by_cases hcase : s = t
    · subst hcase
      exact Relation.TransGen.single (hpath s (by omega))
    · exact Relation.TransGen.tail (ih (by omega) (by omega)) (hpath t (by omega))

theorem path_len_lt (adj : Nat → List Nat) (n : Nat) (p : Nat → Nat) (len : Nat)
    (hb : adj_bounded adj n) (hacyc : acyclic adj)
    (hstart : p 0 < n) (hpath : is_path adj p len) (_hlen : 1 ≤ len) : len < n := by
  have hmem : ∀ m, m ≤ len → p m < n := by
    intro m hm
    cases m with
    | zero => exact hstart
    | succ k => exact hb (p k) (p (k + 1)) (hpath k (by omega))
  have hinj : Set.InjOn p (Finset.range (len + 1) : Finset Nat) := by
    intro a ha b hb2 hab
    by_contra hne
    have ha2 : a ≤ len := by
      have := Finset.mem_range.mp (Finset.mem_coe.mp ha); omega
    have hb3 : b ≤ len := by
      have := Finset.mem_range.mp (Finset.mem_coe.mp hb2); omega
    rcases Nat.lt_or_ge a b with hlt | hge
    · have hseg := path_seg adj p len hpath a b hlt hb3
      rw [hab] at hseg
      exact hacyc (p b) hseg
    · have hlt2 : b < a := by omega
      have hseg := path_seg adj p len hpath b a hlt2 ha2
      rw [hab] at hseg
      exact hacyc (p b) hseg
  have hcard := Finset.card_le_card_of_injOn p
    (fun a ha => Finset.mem_range.mpr
      (hmem a (by have := Finset.mem_range.mp ha; omega))) hinj
  simp only [Finset.card_range] at hcard
  omega

theorem path_to_reach_fuel (adj : Nat → List Nat) :
    ∀ len : Nat, ∀ p : Nat → Nat, ∀ fuel : Nat, 1 ≤ len → len ≤ fuel →
      is_path adj p len → p len ∈ reach_fuel adj fuel (p 0) := by
  intro len
  induction len with
  | zero => intro p fuel h _ _; omega
  | succ len ih =>
    intro p fuel _ hfuel hpath
    cases fuel with
    | zero => omega
    | succ f =>
      rw [reach_fuel_mem]
      cases Nat.eq_zero_or_pos len with
      | inl h0 =>
        subst h0
        exact ⟨p 1, hpath 0 (by omega), Or.inl rfl⟩
      | inr hpos =>
        refine ⟨p 1, hpath 0 (by omega), Or.inr ?_⟩
        have := ih (fun k => p (k + 1)) f hpos (by omega)
          (fun m hm => hpath (m + 1) (by omega))
        simpa using this

theorem reach_fuel_eq_reaches (adj : Nat → List Nat) (n : Nat) (hb : adj_bounded adj n)
    (hacyc : acyclic adj) (i : Nat) (hi : i < n) (j : Nat) :
    j ∈ reach_fuel adj n i ↔ reaches adj i j := by
  constructor
  · exact reach_fuel_sound adj n i j
  · intro h
    obtain ⟨len, p, hlen, hp0, hplen, hpath⟩ := reaches_to_path adj i j h
    have hltn : len < n := path_len_lt adj n p len hb hacyc (by rw [hp0]; exact hi) hpath hlen
    have hres := path_to_reach_fuel adj len p n hlen (by omega) hpath
    rw [hp0, hplen] at hres
    exact hres

theorem default_includes : (default : FileInfo).includes = [] := rfl

theorem default_included_by : (default : FileInfo).included_by = [] := rfl

theorem fget_default (data : List FileInfo) (i : Nat) (hi : data.length ≤ i) :
    fget data i = default :=
  List.getD_eq_default data default hi

theorem fget_range_map (g : Nat → FileInfo) (n i : Nat) (hi : i < n) :
    fget ((List.range n).map g) i = g i := by
  unfold fget
  rw [List.getD_eq_getElem?_getD, List.getElem?_map, List.getElem?_range hi]
  rfl

theorem link_indirect_fields (data : List FileInfo) (i : Nat) (hi : i < data.length) :
    fget (process_step_link_include_indirect data) i
      = { fget data i with
            includes_indirect := reach_fuel (adj_includes data) data.length i
            included_by_indirect := reach_fuel (adj_included_by data) data.length i } := by
  unfold process_step_link_include_indirect
  rw [fget_range_map _ _ _ hi]

theorem adj_includes_bounded (data : List FileInfo)
    (h : ∀ i, i < data.length → ∀ j ∈ (fget data i).includes, j < data.length) :
    adj_bounded (adj_includes data) data.length := by
  intro i j hj
  by_cases hi : i < data.length
  · exact h i hi j hj
  · rw [adj_includes, fget_default data i (by omega), default_includes] at hj
    cases hj

theorem adj_included_by_bounded (data : List FileInfo)
    (h : ∀ i, i < data.length → ∀ j ∈ (fget data i).included_by, j < data.length) :
    adj_bounded (adj_included_by data) data.length := by
  intro i j hj
  by_cases hi : i < data.length
  · exact h i hi j hj
  · rw [adj_included_by, fget_default data i (by omega), default_included_by] at hj
    cases hj

theorem adj_dual (data : List FileInfo)
    (h : ∀ i, i < data.length → ∀ j, j < data.length →
      (j ∈ (fget data i).includes ↔ i ∈ (fget data j).included_by))
    (hb1 : adj_bounded (adj_includes data) data.length)
    (hb2 : adj_bounded (adj_included_by data) data.length) :
    ∀ i j, adj_rel (adj_includes data) i j ↔ adj_rel (adj_included_by data) j i := by
  intro i j
  constructor
  · intro hj
    have hjlt : j < data.length := hb1 i j hj
    by_cases hi : i < data.length
    · exact (h i hi j hjlt).mp hj
    · rw [adj_rel, adj_includes, fget_default data i (by omega), default_includes] at hj
      cases hj
  · intro hi2
    have hilt : i < data.length := hb2 j i hi2
    by_cases hj2 : j < data.length
    · exact (h i hilt j hj2).mpr hi2
    · rw [adj_rel, adj_included_by, fget_default data j (by omega), default_included_by] at hi2
      cases hi2

theorem acyclic_of_increasing (adj : Nat → List Nat) (h : ∀ i j, j ∈ adj i → i < j) :
    acyclic adj := by
  intro i hreach
  have hmono : ∀ a b : Nat, reaches adj a b → a < b := by
    intro a b hr
    induction hr with
    | single h1 => exact h _ _ h1
    | tail _ h2 ih => exact Nat.lt_trans ih (h _ _ h2)
  exact Nat.lt_irrefl i (hmono i i hreach)

/-- C4: on an acyclic, index-valid, edge-symmetric graph, the closure step
computes exactly reachability in one or more steps: `includesIndirect i`
holds `j` iff `j` is reachable from `i` along forward edges, and
`includedByIndirect i` holds `j` iff `j` is reachable along backward
edges; membership in a `Finset` records each reachable file once. -/
theorem claim_c4_transitive_closure (data : List FileInfo)
    (hb1 : adj_bounded (adj_includes data) data.length)
    (hb2 : adj_bounded (adj_included_by data) data.length)
    (hdual : ∀ i j, adj_rel (adj_includes data) i j ↔ adj_rel (adj_included_by data) j i)
    (hacyc : acyclic (adj_includes data))
    (i : Nat) (hi : i < data.length) (j : Nat) :
    (j ∈ (fget (process_step_link_include_indirect data) i).includes_indirect
        ↔ reaches (adj_includes data) i j) ∧
    (j ∈ (fget (process_step_link_include_indirect data) i).included_by_indirect
        ↔ reaches (adj_included_by data) i j) := by
  have hacyc2 : acyclic (adj_included_by data) := by
    intro x hx
    have hsw : Relation.TransGen (Function.swap (adj_rel (adj_includes data))) x x :=
      Relation.TransGen.mono (fun a b hab => (hdual b a).mpr hab) hx
    exact hacyc x (Relation.transGen_swap.mp hsw)
  rw [link_indirect_fields data i hi]
  constructor
  · exact reach_fuel_eq_reaches (adj_includes data) data.length hb1 hacyc i hi j
  · exact reach_fuel_eq_reaches (adj_included_by data) data.length hb2 hacyc2 i hi j

theorem chain_data_increasing : ∀ i j : Nat, j ∈ adj_includes chain_data i → i < j := by
  intro i j hj
  by_cases hi : i < 3
  · have hball : ∀ i2, i2 < 3 → ∀ j2 ∈ adj_includes chain_data i2, i2 < j2 := by decide
    exact hball i hi j hj
  · have hlen : chain_data.length = 3 := rfl
    rw [adj_includes, fget_default chain_data i (by rw [hlen]; omega), default_includes] at hj
    cases hj

/-- Closed witness for C4 on the chain 0 → 1 → 2. -/
theorem claim_c4_witness :
    2 ∈ (fget (process_step_link_include_indirect chain_data) 0).includes_indirect ∧
      0 ∈ (fget (process_step_link_include_indirect chain_data) 2).included_by_indirect := by
  have hb1 : adj_bounded (adj_includes chain_data) chain_data.length :=
    adj_includes_bounded chain_data (by decide)
  have hb2 : adj_bounded (adj_included_by chain_data) chain_data.length :=
    adj_included_by_bounded chain_data (by decide)
  have hdual := adj_dual chain_data (by decide) hb1 hb2
  have hacyc : acyclic (adj_includes chain_data) :=
    acyclic_of_increasing _ chain_data_increasing
  constructor
  · exact (claim_c4_transitive_closure chain_data hb1 hb2 hdual hacyc 0 (by decide) 2).1.mpr
      (Relation.TransGen.tail
        (Relation.TransGen.single (by decide : (1 : Nat) ∈ adj_includes chain_data 0))
        (by decide : (2 : Nat) ∈ adj_includes chain_data 1))
  · exact (claim_c4_transitive_closure chain_data hb1 hb2 hdual hacyc 2 (by decide) 0).2.mpr
      (Relation.TransGen.tail
        (Relation.TransGen.single (by decide : (1 : Nat) ∈ adj_included_by chain_data 2))
        (by decide : (0 : Nat) ∈ adj_included_by chain_data 1))

theorem peel_find_some : ∀ all : List CircCheck, ∀ r : Nat, ∀ rem : List CircCheck,
    peel_find all = some (r, rem) →
    ∃ l1 c l2, all = l1 ++ c :: l2 ∧ rem = l1 ++ l2 ∧ c.idx = r ∧ c.included_by = [] := by
  intro all
  induction all with
  | nil => intro r rem h; cases h
  | cons c rest ih =>
    intro r rem h
    by_cases hc : c.included_by.isEmpty
    · simp only [peel_find, if_pos hc] at h
      simp only [Option.some.injEq, Prod.mk.injEq] at h
      exact ⟨[], c, rest, rfl, by simp [h.2.symm], h.1, List.isEmpty_iff.mp hc⟩
    · simp only [peel_find, if_neg hc] at h
      cases hfind : peel_find rest with
      | none => rw [hfind] at h; cases h
      | some p =>
        rw [hfind] at h
        simp only [Option.map_some', Option.some.injEq, Prod.mk.injEq] at h
        obtain ⟨l1, c2, l2, he1, he2, he3, he4⟩ := ih p.1 p.2 (by rw [hfind])
        refine ⟨c :: l1, c2, l2, by rw [he1]; rfl, ?_, by rw [he3, h.1], he4⟩
        rw [← h.2, he2]
        rfl

theorem peel_find_none : ∀ all : List CircCheck, peel_find all = none →
    ∀ c ∈ all, c.included_by ≠ [] := by
  intro all
  induction all with
  | nil => intro _ c hc; cases hc
  | cons c rest ih =>
    intro h d hd
    by_cases hc : c.included_by.isEmpty
    · simp only [peel_find, if_pos hc] at h
      cases h
    · simp only [peel_find, if_neg hc] at h
      rcases List.mem_cons.mp hd with rfl | hd2
      · intro hemp
        exact hc (by rw [hemp]; rfl)
      · cases hfind : peel_find rest with
        | none => exact ih hfind d hd2
        | some p => rw [hfind] at h; cases h

theorem peel_round_inv (data : List FileInfo) (all all2 : List CircCheck)
    (hinv : peel_inv data all) (h : peel_round all = some all2) :
    ∃ r, r ∈ circ_idxs all ∧
      (orig_ib data r).filter (fun y => decide (y ∈ circ_idxs all)) = [] ∧
      (∀ y : Nat, y ∈ circ_idxs all2 ↔ y ∈ circ_idxs all ∧ y ≠ r) ∧
      peel_inv data all2 ∧
      all2.length + 1 = all.length := by
  obtain ⟨p, hp, hg⟩ := Option.map_eq_some'.mp h
  obtain ⟨l1, c, l2, he1, he2, hcr, hcemp⟩ := peel_find_some all p.1 p.2 (by rw [hp])
  obtain ⟨hnd, hlt, hib⟩ := hinv
  have hSall : circ_idxs all = circ_idxs l1 ++ p.1 :: circ_idxs l2 := by
    rw [he1, circ_idxs, List.map_append, List.map_cons, hcr]
    rfl
  have hS2 : circ_idxs all2 = circ_idxs l1 ++ circ_idxs l2 := by
    rw [← hg, he2, circ_idxs, List.map_map, List.map_append]
    rfl
  have hrin : p.1 ∈ circ_idxs all := by rw [hSall]; simp
  have hnd2 := hnd
  rw [hSall] at hnd2
  have hrl1 : p.1 ∉ circ_idxs l1 := by
    intro hmem
    exact (List.disjoint_of_nodup_append hnd2) hmem (by simp)
  have hrl2 : p.1 ∉ circ_idxs l2 := by
    have hx := (List.nodup_append.mp hnd2).2.1
    exact (List.nodup_cons.mp hx).1
  have hiff : ∀ y : Nat, y ∈ circ_idxs all2 ↔ y ∈ circ_idxs all ∧ y ≠ p.1 := by
    intro y
    rw [hS2, hSall]
    simp only [List.mem_append, List.mem_cons]
    constructor
    · rintro (h1 | h1)
      · exact ⟨Or.inl h1, fun hy => hrl1 (hy ▸ h1)⟩
      · exact ⟨Or.inr (Or.inr h1), fun hy => hrl2 (hy ▸ h1)⟩
    · rintro ⟨h1 | h1 | h1, hy⟩
      · exact Or.inl h1
      · exact absurd h1 hy
      · exact Or.inr h1
  have hcin : c ∈ all := by rw [he1]; simp
  have hfemp : (orig_ib data p.1).filter (fun y => decide (y ∈ circ_idxs all)) = [] := by
    rw [← hcr, ← hib c hcin, hcemp]
  have hinv2 : peel_inv data all2 := by
    refine ⟨?_, ?_, ?_⟩
    · rw [hS2]
      refine List.Nodup.sublist ?_ hnd2
      exact List.Sublist.append_left (List.sublist_cons_self p.1 (circ_idxs l2)) (circ_idxs l1)
    · intro x hx
      exact hlt x ((hiff x).mp hx).1
    · intro c2 hc2
      rw [← hg] at hc2
      obtain ⟨d, hd, hdg⟩ := List.mem_map.mp hc2
      have hdall : d ∈ all := by
        rw [he2] at hd
        rw [he1]
        rcases List.mem_append.mp hd with h1 | h1
        · exact List.mem_append.mpr (Or.inl h1)
        · exact List.mem_append.mpr (Or.inr (List.mem_cons_of_mem c h1))
      have hidx : c2.idx = d.idx := by rw [← hdg]
      have hibd : c2.included_by = d.included_by.filter (fun x => decide (x ≠ p.1)) := by
        rw [← hdg]
      rw [hibd, hib d hdall, List.filter_filter, hidx]
      refine List.filter_congr ?_
      intro y _
      show (decide (y ≠ p.1) && decide (y ∈ circ_idxs all)) = decide (y ∈ circ_idxs all2)
      by_cases h1 : y ∈ circ_idxs all2
      · have h2 := (hiff y).mp h1
        rw [decide_eq_true h2.2, decide_eq_true h2.1, decide_eq_true h1]
        rfl
      · have h2 : ¬(y ∈ circ_idxs all ∧ y ≠ p.1) := fun hcon => h1 ((hiff y).mpr hcon)
        by_cases h3 : y ∈ circ_idxs all
        · have h4 : y = p.1 := by
            by_contra h5
            exact h2 ⟨h3, h5⟩
          rw [decide_eq_false (fun hne => hne h4), decide_eq_false h1, Bool.false_and]
        · rw [decide_eq_false h3, decide_eq_false h1, Bool.and_false]
  refine ⟨p.1, hrin, hfemp, hiff, hinv2, ?_⟩
  rw [← hg, he2, he1]
  simp [List.length_append]
  omega

theorem peel_loop_inv (data : List FileInfo) :
    ∀ fuel : Nat, ∀ all : List CircCheck, peel_inv data all →
      (∀ x : Nat, reaches (adj_included_by data) x x → x ∈ circ_idxs all) →
      peel_inv data (peel_loop fuel all) ∧
      (∀ x : Nat, reaches (adj_included_by data) x x → x ∈ circ_idxs (peel_loop fuel all)) ∧
      (all.length ≤ fuel → peel_find (peel_loop fuel all) = none) := by
  intro fuel
  induction fuel with
  | zero =>
    intro all hinv hcyc
    refine ⟨hinv, hcyc, ?_⟩
    intro hlen
    have : all = [] := List.length_eq_zero.mp (Nat.le_zero.mp hlen)
    subst this
    rfl
  | succ f ih =>
    intro all hinv hcyc
    cases hr : peel_round all with
    | none =>
      simp only [peel_loop, hr]
      refine ⟨hinv, hcyc, fun _ => ?_⟩
      unfold peel_round at hr
      exact Option.map_eq_none'.mp hr
    | some all2 =>
      simp only [peel_loop, hr]
      obtain ⟨r, hrS, hfemp, hiff, hinv2, hlen2⟩ := peel_round_inv data all all2 hinv hr
      have hcyc2 : ∀ x : Nat, reaches (adj_included_by data) x x → x ∈ circ_idxs all2 := by
        intro x hx
        refine (hiff x).mpr ⟨hcyc x hx, ?_⟩
        intro hxr
        subst hxr
        obtain ⟨y, hy1, hy2⟩ := Relation.TransGen.head'_iff.mp hx
        have hycyc : reaches (adj_included_by data) y y :=
          Relation.TransGen.trans_right hy2 (Relation.TransGen.single hy1)
        have hyS : y ∈ circ_idxs all := hcyc y hycyc
        have hynot := List.filter_eq_nil_iff.mp hfemp y hy1
        exact hynot (decide_eq_true hyS)
      have hres := ih all2 hinv2 hcyc2
      exact ⟨hres.1, hres.2.1, fun hlen => hres.2.2 (by omega)⟩

theorem cycle_of_succ (adj : Nat → List Nat) (S : Finset Nat) (x0 : Nat) (hx0 : x0 ∈ S)
    (hstep : ∀ x ∈ S, ∃ y ∈ S, y ∈ adj x) :
    ∃ z : Nat, reaches adj z z := by
  have hch : ∀ x : Nat, ∃ y : Nat, x ∈ S → (y ∈ S ∧ y ∈ adj x) := by
    intro x
    by_cases hx : x ∈ S
    · obtain ⟨y, hy1, hy2⟩ := hstep x hx
      exact ⟨y, fun _ => ⟨hy1, hy2⟩⟩
    · exact ⟨0, fun h => absurd h hx⟩
  choose f hf using hch
  have hiter : ∀ k : Nat, f^[k] x0 ∈ S := by
    intro k
    induction k with
    | zero => simpa using hx0
    | succ k ihk =>
      rw [Function.iterate_succ_apply']
      exact (hf _ ihk).1
  have hseg : ∀ k l : Nat, k < l → Relation.TransGen (adj_rel adj) (f^[k] x0) (f^[l] x0) := by
    intro k l
    induction l with
    | zero => intro h; omega
    | succ l ihl =>
      intro hkl
      have hedge : adj_rel adj (f^[l] x0) (f^[l + 1] x0) := by
        rw [Function.iterate_succ_apply']
        exact (hf _ (hiter l)).2
      by_cases hcase : k = l
      · subst hcase
        exact Relation.TransGen.single hedge
      · exact Relation.TransGen.tail (ihl (by omega)) hedge
  have hmaps : ∀ k ∈ Finset.range (S.card + 1), f^[k] x0 ∈ S := fun k _ => hiter k
  have hcard : S.card < (Finset.range (S.card + 1)).card := by simp
  obtain ⟨k, hk, l, hl, hne2, heq⟩ :=
    Finset.exists_ne_map_eq_of_card_lt_of_maps_to hcard hmaps
  rcases Nat.lt_or_ge k l with hkl | hkl
  · refine ⟨f^[k] x0, ?_⟩
    have := hseg k l hkl
    rw [← heq] at this
    exact this
  · have hlk : l < k := by omega
    refine ⟨f^[l] x0, ?_⟩
    have := hseg l k hlk
    rw [heq] at this
    exact this

theorem circ_init_idxs (data : List FileInfo) :
    circ_idxs (circ_init data) = List.range data.length := by
  rw [circ_init, circ_idxs, List.map_map]
  exact List.map_id' _

theorem circ_init_inv (data : List FileInfo)
    (hb : adj_bounded (adj_included_by data) data.length) :
    peel_inv data (circ_init data) := by
  refine ⟨?_, ?_, ?_⟩
  · rw [circ_init_idxs]
    exact List.nodup_range _
  · intro x hx
    rw [circ_init_idxs] at hx
    exact List.mem_range.mp hx
  · intro c hc
    obtain ⟨i, hi, rfl⟩ := List.mem_map.mp hc
    symm
    apply List.filter_eq_self.mpr
    intro y hy
    apply decide_eq_true
    rw [circ_init_idxs]
    exact List.mem_range.mpr (hb i y hy)

/-- C3: the peeling cycle check returns no witness exactly when the
forward include graph is acyclic; a returned pair `(a, b)` consists of a
node `a` that remains after peeling together with a still-present
includer `b` of `a` (`b` is in `a`'s original in-list and itself
remains). -/
theorem claim_c3_cycle_detection (data : List FileInfo)
    (hb : adj_bounded (adj_included_by data) data.length)
    (hdual : ∀ i j : Nat, adj_rel (adj_includes data) i j ↔ adj_rel (adj_included_by data) j i) :
    (process_step_check_circular data = none ↔ acyclic (adj_includes data)) ∧
    (∀ a b : Nat, process_step_check_circular data = some (a, b) →
      a ∈ final_idxs data ∧ b ∈ final_idxs data ∧ b ∈ (fget data a).included_by) := by
  have hconv : ∀ x : Nat,
      reaches (adj_included_by data) x x ↔ reaches (adj_includes data) x x := by
    intro x
    constructor
    · intro hx
      exact Relation.transGen_swap.mp
        (Relation.TransGen.mono (fun a b hab => (hdual b a).mpr hab) hx)
    · intro hx
      exact Relation.transGen_swap.mp
        (Relation.TransGen.mono (fun a b hab => (hdual a b).mp hab) hx)
  have hinit_cyc : ∀ x : Nat, reaches (adj_included_by data) x x →
      x ∈ circ_idxs (circ_init data) := by
    intro x hx
    rw [circ_init_idxs]
    obtain ⟨y, hy1, hy2⟩ := Relation.TransGen.tail'_iff.mp hx
    exact List.mem_range.mpr (hb y x hy2)
  obtain ⟨hfin_inv, hfin_cyc, hfin_none⟩ :=
    peel_loop_inv data data.length (circ_init data) (circ_init_inv data hb) hinit_cyc
  have hlen_init : (circ_init data).length = data.length := by
    rw [circ_init]
    simp
  have hfnone := hfin_none (by rw [hlen_init])
  cases hfin : peel_loop data.length (circ_init data) with
  | nil =>
    have hchk : process_step_check_circular data = none := by
      unfold process_step_check_circular
      rw [hfin]
    refine ⟨?_, ?_⟩
    · rw [hchk]
      constructor
      · intro _ x hx
        have hxb : reaches (adj_included_by data) x x := (hconv x).mpr hx
        have hmem := hfin_cyc x hxb
        rw [hfin] at hmem
        cases hmem
      · intro _
        rfl
    · intro a b hab
      rw [hchk] at hab
      cases hab
  | cons c rest =>
    have hchk : process_step_check_circular data
        = some (c.idx, c.included_by.headD 0) := by
      unfold process_step_check_circular
      rw [hfin]
    rw [hfin] at hfin_inv hfin_cyc hfnone
    have hne_all : ∀ d ∈ c :: rest, d.included_by ≠ [] := peel_find_none _ hfnone
    obtain ⟨hnd, hlt, hib⟩ := hfin_inv
    have hstep : ∀ x ∈ (circ_idxs (c :: rest)).toFinset,
        ∃ y ∈ (circ_idxs (c :: rest)).toFinset, y ∈ adj_included_by data x := by
      intro x hx
      obtain ⟨d, hd, hdx⟩ := List.mem_map.mp (List.mem_toFinset.mp hx)
      have hdne := hne_all d hd
      rw [hib d hd] at hdne
      obtain ⟨y, hy⟩ : ∃ y, y ∈ (orig_ib data d.idx).filter
          (fun y => decide (y ∈ circ_idxs (c :: rest))) := by
        cases hl : (orig_ib data d.idx).filter
            (fun y => decide (y ∈ circ_idxs (c :: rest))) with
        | nil => exact absurd hl hdne
        | cons z zs => exact ⟨z, List.mem_cons_self z zs⟩
      have hy2 := List.mem_filter.mp hy
      refine ⟨y, List.mem_toFinset.mpr (of_decide_eq_true hy2.2), ?_⟩
      rw [← hdx]
      exact hy2.1
    have hx0 : c.idx ∈ (circ_idxs (c :: rest)).toFinset := by
      apply List.mem_toFinset.mpr
      simp [circ_idxs]
    obtain ⟨z, hz⟩ := cycle_of_succ (adj_included_by data) _ c.idx hx0 hstep
    refine ⟨?_, ?_⟩
    · rw [hchk]
      constructor
      · intro hcon
        cases hcon
      · intro hacyc
        exact absurd ((hconv z).mp hz) (hacyc z)
    · intro a b hab
      rw [hchk] at hab
      simp only [Option.some.injEq, Prod.mk.injEq] at hab
      obtain ⟨ha, hb2⟩ := hab
      subst ha
      subst hb2
      have heq := hib c (List.mem_cons_self c rest)
      have hmem : c.included_by.headD 0 ∈ (orig_ib data c.idx).filter
          (fun y => decide (y ∈ circ_idxs (c :: rest))) := by
        rw [← heq]
        cases hcl : c.included_by with
        | nil => exact absurd hcl (hne_all c (List.mem_cons_self c rest))
        | cons v vs => simp
      have hm2 := List.mem_filter.mp hmem
      refine ⟨?_, ?_, hm2.1⟩
      · rw [final_idxs, hfin]
        simp [circ_idxs]
      · rw [final_idxs, hfin]
        exact of_decide_eq_true hm2.2

/-- Closed witness for C3 on the two-record cycle: the check reports the
pair `(0, 1)`, the graph is indeed cyclic, and the witness pair satisfies
the remaining-node / still-present-includer properties. -/
theorem claim_c3_witness :
    ¬ acyclic (adj_includes cyc2_data) ∧
      0 ∈ final_idxs cyc2_data ∧ 1 ∈ final_idxs cyc2_data ∧
      1 ∈ (fget cyc2_data 0).included_by := by
  have hb2 : adj_bounded (adj_included_by cyc2_data) cyc2_data.length :=
    adj_included_by_bounded cyc2_data (by decide)
  have hb1 : adj_bounded (adj_includes cyc2_data) cyc2_data.length :=
    adj_includes_bounded cyc2_data (by decide)
  have hdual := adj_dual cyc2_data (by decide) hb1 hb2
  have hmain := claim_c3_cycle_detection cyc2_data hb2 hdual
  have hchk : process_step_check_circular cyc2_data = some (0, 1) := by decide
  refine ⟨?_, hmain.2 0 1 hchk⟩
  intro hacyc
  have hnone := hmain.1.mpr hacyc
  rw [hchk] at hnone
  cases hnone

theorem fget_map (g : FileInfo → FileInfo) (data : List FileInfo) (i : Nat)
    (hi : i < data.length) : fget (data.map g) i = g (fget data i) := by
  unfold fget
  rw [List.getD_eq_getElem?_getD, List.getElem?_map, List.getElem?_eq_getElem hi]
  rw [List.getD_eq_getElem?_getD, List.getElem?_eq_getElem hi]
  rfl

theorem calc_costs_length (data : List FileInfo) :
    (process_step_calc_costs data).length = data.length := by
  unfold process_step_calc_costs
  exact List.length_map _ _

theorem calc_costs_fget (data : List FileInfo) (i : Nat) (hi : i < data.length) :
    fget (process_step_calc_costs data) i
      = { fget data i with
            lines_with_all_includes := (fget data i).lines
              + Finset.sum (fget data i).includes_indirect (fun x => (fget data x).lines)
            lines_contributes_self := (fget data i).lines
              * (fget data i).included_by_indirect.card
            lines_contributes_total := ((fget data i).lines
              + Finset.sum (fget data i).includes_indirect (fun x => (fget data x).lines))
              * (fget data i).included_by_indirect.card } := by
  unfold process_step_calc_costs
  exact fget_map _ data i hi

/-- C5: after cost aggregation, `combinedLines` of every file equals its
own code lines plus the sum of the code lines of the distinct files in
its `includesIndirect` set (summing over a `Finset` counts each
transitively included file exactly once, however many inclusion paths
reach it); in particular `combinedLines ≥ codeLineCount`. -/
theorem claim_c5_combined_lines (data : List FileInfo) (i : Nat) (hi : i < data.length) :
    (fget (process_step_calc_costs data) i).lines_with_all_includes
        = (fget data i).lines
          + Finset.sum (fget data i).includes_indirect (fun g => (fget data g).lines) ∧
    (fget data i).lines ≤ (fget (process_step_calc_costs data) i).lines_with_all_includes := by
  rw [calc_costs_fget data i hi]
  exact ⟨rfl, Nat.le_add_right _ _⟩

/-- Closed witness for C5: on `c5_data`, record 0 combines 2 own lines
with 3 + 4 + 5 transitively included lines. -/
theorem claim_c5_witness :
    ((fget (process_step_calc_costs c5_data) 0).lines_with_all_includes
        = (fget c5_data 0).lines
          + Finset.sum (fget c5_data 0).includes_indirect (fun g => (fget c5_data g).lines) ∧
      (fget c5_data 0).lines
        ≤ (fget (process_step_calc_costs c5_data) 0).lines_with_all_includes) ∧
    (fget (process_step_calc_costs c5_data) 0).lines_with_all_includes = 14 :=
  ⟨claim_c5_combined_lines c5_data 0 (by decide), by decide⟩

theorem process_data_success (input out : List FileInfo)
    (hrun : process_data input = .ok (.success out)) :
    ∃ d3 : List FileInfo,
      out = process_step_calc_costs (process_step_link_include_indirect d3) := by
  unfold process_data at hrun
  cases hp : process_step_parse input with
  | error e => rw [hp] at hrun; cases hrun
  | ok pr =>
    obtain ⟨d1, names⟩ := pr
    simp only [hp] at hrun
    cases hc : process_step_check_circular
        (process_step_link_include (process_step_generate_stubs d1 names)) with
    | some p =>
      obtain ⟨a, b⟩ := p
      simp only [hc] at hrun
      exact absurd hrun (by simp)
    | none =>
      simp only [hc, Except.ok.injEq, PipeResult.success.injEq] at hrun
      exact ⟨process_step_generate_stubs d1 names |> process_step_link_include, hrun.symm⟩

/-- C1 is false as stated: on a single source file with one code line and
no includers, the code computes `contributionSelf = 1 * 0 = 0`, while the
claim demands weight exactly 1 for a source file. -/
theorem claim_c1_counterexample : ¬ claim_c1_statement := by
  intro h
  have hrun : process_data c1_data = .ok (.success c1_out) := by decide
  have hsrc := (h c1_data c1_out hrun 0 (by decide)).2 (by decide)
  exact absurd hsrc.1 (by decide)

/-- C1 amended: after cost aggregation, EVERY file, source or not, has
`contributionSelf = codeLineCount * |includedByIndirect|` and
`contributionTotal = combinedLines * |includedByIndirect|`: the weight is
the number of distinct files of any kind (headers as well as sources)
that transitively include the file, with no special case for source
files. -/
theorem claim_c1_amended (input out : List FileInfo)
    (hrun : process_data input = .ok (.success out)) (i : Nat) (hi : i < out.length) :
    (fget out i).lines_contributes_self
        = (fget out i).lines * (fget out i).included_by_indirect.card ∧
    (fget out i).lines_contributes_total
        = (fget out i).lines_with_all_includes
          * (fget out i).included_by_indirect.card := by
  obtain ⟨d3, hd3⟩ := process_data_success input out hrun
  subst hd3
  rw [calc_costs_length] at hi
  rw [calc_costs_fget _ i hi]
  exact ⟨rfl, rfl⟩

/-- Closed witness for the amended C1 on the single-source-file pipeline
run. -/
theorem claim_c1_amended_witness :
    (fget c1_out 0).lines_contributes_self
        = (fget c1_out 0).lines * (fget c1_out 0).included_by_indirect.card ∧
    (fget c1_out 0).lines_contributes_total
        = (fget c1_out 0).lines_with_all_includes
          * (fget c1_out 0).included_by_indirect.card :=
  claim_c1_amended c1_data c1_out (by decide) 0 (by decide)

theorem foldl_preserve {β : Type} (P : FileInfo → Prop)
    (step : List FileInfo → β → List FileInfo)
    (hstep : ∀ d : List FileInfo, ∀ x : β, (∀ f ∈ d, P f) → ∀ f ∈ step d x, P f) :
    ∀ l : List β, ∀ d : List FileInfo, (∀ f ∈ d, P f) → ∀ f ∈ l.foldl step d, P f := by
  intro l
  induction l with
  | nil => intro d h; exact h
  | cons x rest ih => intro d h; exact ih (step d x) (hstep d x h)

theorem modify_at_mem (l : List FileInfo) (i : Nat) (g : FileInfo → FileInfo) :
    ∀ f ∈ modify_at l i g, f ∈ l ∨ ∃ y ∈ l, f = g y := by
  induction l generalizing i with
  | nil => intro f hf; cases hf
  | cons x rest ih =>
    intro f hf
    cases i with
    | zero =>
      rcases List.mem_cons.mp hf with rfl | h2
      · exact Or.inr ⟨x, List.mem_cons_self x rest, rfl⟩
      · exact Or.inl (List.mem_cons_of_mem x h2)
    | succ i2 =>
      rcases List.mem_cons.mp hf with rfl | h2
      · exact Or.inl (List.mem_cons_self _ _)
      · rcases ih i2 f h2 with h3 | ⟨y, hy, he⟩
        · exact Or.inl (List.mem_cons_of_mem x h3)
        · exact Or.inr ⟨y, List.mem_cons_of_mem x hy, he⟩

theorem link_push_aux (d : List FileInfo) (i j : Nat)
    (h : ∀ f ∈ d, aux_fields_initial f) :
    ∀ f ∈ link_push d i j, aux_fields_initial f := by
  intro f hf
  unfold link_push at hf
  rcases modify_at_mem _ _ _ f hf with h1 | ⟨y, hy, rfl⟩
  · rcases modify_at_mem _ _ _ f h1 with h2 | ⟨z, hz, rfl⟩
    · exact h f h2
    · exact h z hz
  · rcases modify_at_mem _ _ _ y hy with h2 | ⟨z, hz, rfl⟩
    · exact h y h2
    · exact h z hz

theorem link_aux (d : List FileInfo) (h : ∀ f ∈ d, aux_fields_initial f) :
    ∀ f ∈ process_step_link_include d, aux_fields_initial f := by
  unfold process_step_link_include
  refine foldl_preserve aux_fields_initial _ ?_ _ d h
  intro d2 idx h2
  refine foldl_preserve aux_fields_initial _ ?_ _ d2 h2
  intro d3 idx2 h3
  exact link_push_aux _ _ _ h3

theorem stubs_aux (names : List (List Char)) (d : List FileInfo)
    (h : ∀ f ∈ d, aux_fields_initial f) :
    ∀ f ∈ process_step_generate_stubs d names, aux_fields_initial f := by
  unfold process_step_generate_stubs
  refine foldl_preserve aux_fields_initial _ ?_ names d h
  intro d2 nm h2 f hf
  by_cases hany : d2.any (fun x => decide (x.name = nm)) = true
  · rw [if_pos hany] at hf
    exact h2 f hf
  · rw [if_neg hany] at hf
    rcases List.mem_append.mp hf with h3 | h3
    · exact h2 f h3
    · simp only [List.mem_singleton] at h3
      subst h3
      exact ⟨rfl, rfl, rfl, rfl, rfl⟩

theorem parse_go_aux : ∀ fs : List FileInfo, ∀ acc : List (List Char),
    ∀ fs2 : List FileInfo, ∀ names : List (List Char),
    (∀ f ∈ fs, aux_fields_initial f) → parse_go acc fs = .ok (fs2, names) →
    ∀ f2 ∈ fs2, aux_fields_initial f2 := by
  intro fs
  induction fs with
  | nil =>
    intro acc fs2 names _ hp f2 hf2
    simp only [parse_go, Except.ok.injEq, Prod.mk.injEq] at hp
    rw [← hp.1] at hf2
    cases hf2
  | cons f rest ih =>
    intro acc fs2 names h hp f2 hf2
    simp only [parse_go] at hp
    cases hpd : parse_file_data f.data with
    | error e =>
      rw [hpd] at hp
      cases hp
    | ok pr =>
      obtain ⟨incs, clines⟩ := pr
      simp only [hpd] at hp
      cases hpg : parse_go (incs.foldl (fun a ii => insert_name a ii.name) acc) rest with
      | error e =>
        rw [hpg] at hp
        cases hp
      | ok pr2 =>
        obtain ⟨rest2, names2⟩ := pr2
        simp only [hpg, Except.ok.injEq, Prod.mk.injEq] at hp
        rw [← hp.1] at hf2
        rcases List.mem_cons.mp hf2 with rfl | h2
        · exact h f (List.mem_cons_self f rest)
        · exact ih _ rest2 names2 (fun g hg => h g (List.mem_cons_of_mem f hg)) (by rw [hpg]) f2 h2

theorem process_data_cycle (input : List FileInfo) (a b : Nat) (d : List FileInfo)
    (hrun : process_data input = .ok (.cycle a b d)) :
    ∃ d1 names, process_step_parse input = .ok (d1, names) ∧
      d = process_step_link_include (process_step_generate_stubs d1 names) := by
  unfold process_data at hrun
  cases hp : process_step_parse input with
  | error e => rw [hp] at hrun; cases hrun
  | ok pr =>
    obtain ⟨d1, names⟩ := pr
    simp only [hp] at hrun
    cases hc : process_step_check_circular
        (process_step_link_include (process_step_generate_stubs d1 names)) with
    | some p =>
      obtain ⟨a2, b2⟩ := p
      simp only [hc, Except.ok.injEq, PipeResult.cycle.injEq] at hrun
      exact ⟨d1, names, rfl, hrun.2.2.symm⟩
    | none =>
      simp only [hc] at hrun
      exact absurd hrun (by simp)

/-- C6: if the cycle check finds a witness pair, the pipeline halts with
that pair, and the closure and cost fields of every record in the halted
collection remain at their `FileInfo::new` initial values: no file's
`includesIndirect`, `includedByIndirect`, `combinedLines` or contribution
fields are computed. -/
theorem claim_c6_cycle_halts (input : List FileInfo) (a b : Nat) (d : List FileInfo)
    (hinit : ∀ f ∈ input, aux_fields_initial f)
    (hrun : process_data input = .ok (.cycle a b d)) :
    ∀ f ∈ d, aux_fields_initial f := by
  obtain ⟨d1, names, hp, hd⟩ := process_data_cycle input a b d hrun
  subst hd
  exact link_aux _ (stubs_aux names d1 (parse_go_aux input [] d1 names hinit hp))

/-- Closed witness for C6 on the mutually-including pair of files: the
pipeline halts with witness `(0, 1)` and both halted records still have
unset closure and cost fields. -/
theorem claim_c6_witness :
    aux_fields_initial (fget c6_linked 0) ∧ aux_fields_initial (fget c6_linked 1) := by
  have hrun : process_data c6_input = .ok (.cycle 0 1 c6_linked) := by decide
  have hall := claim_c6_cycle_halts c6_input 0 1 c6_linked (by decide) hrun
  exact ⟨hall _ (by decide), hall _ (by decide)⟩

theorem modify_at_length (l : List FileInfo) (i : Nat) (g : FileInfo → FileInfo) :
    (modify_at l i g).length = l.length := by
  induction l generalizing i with
  | nil => rfl
  | cons x t ih =>
    cases i with
    | zero => rfl
    | succ i2 => simp [modify_at, ih i2]

theorem modify_at_oob (l : List FileInfo) (i : Nat) (g : FileInfo → FileInfo)
    (h : l.length ≤ i) : modify_at l i g = l := by
  induction l generalizing i with
  | nil => rfl
  | cons x t ih =>
    cases i with
    | zero => simp at h
    | succ i2 =>
      simp only [List.length_cons] at h
      simp [modify_at, ih i2 (by omega)]

theorem fget_modify_at_same (l : List FileInfo) (i : Nat) (g : FileInfo → FileInfo)
    (h : i < l.length) : fget (modify_at l i g) i = g (fget l i) := by
  induction l generalizing i with
  | nil => simp at h
  | cons x t ih =>
    cases i with
    | zero => rfl
    | succ i2 =>
      simp only [List.length_cons] at h
      simp only [modify_at, fget, List.getD_cons_succ]
      exact ih i2 (by omega)

theorem fget_modify_at_ne (l : List FileInfo) (i : Nat) (g : FileInfo → FileInfo)
    (k : Nat) (h : k ≠ i) : fget (modify_at l i g) k = fget l k := by
  induction l generalizing i k with
  | nil => rfl
  | cons x t ih =>
    cases i with
    | zero =>
      cases k with
      | zero => exact absurd rfl h
      | succ k2 => simp [modify_at, fget, List.getD_cons_succ]
    | succ i2 =>
      cases k with
      | zero => rfl
      | succ k2 =>
        simp only [modify_at, fget, List.getD_cons_succ]
        exact ih i2 k2 (by omega)

theorem fget_modify_at_field {α : Type} (sel : FileInfo → α) (l : List FileInfo)
    (i : Nat) (g : FileInfo → FileInfo) (hg : ∀ f, sel (g f) = sel f) (k : Nat) :
    sel (fget (modify_at l i g) k) = sel (fget l k) := by
  by_cases hk : k = i
  · subst hk
    by_cases hlen : k < l.length
    · rw [fget_modify_at_same l k g hlen, hg]
    · rw [modify_at_oob l k g (by omega)]
  · rw [fget_modify_at_ne l i g k hk]

theorem link_push_length (d : List FileInfo) (i j : Nat) :
    (link_push d i j).length = d.length := by
  unfold link_push
  rw [modify_at_length, modify_at_length]

theorem link_push_name (d : List FileInfo) (i j k : Nat) :
    (fget (link_push d i j) k).name = (fget d k).name := by
  unfold link_push
  rw [fget_modify_at_field (fun f => f.name) _ i (push_inc j) (fun f => rfl) k,
    fget_modify_at_field (fun f => f.name) d j (push_ib i) (fun f => rfl) k]

theorem link_push_parsed (d : List FileInfo) (i j k : Nat) :
    (fget (link_push d i j) k).parsed_includes = (fget d k).parsed_includes := by
  unfold link_push
  rw [fget_modify_at_field (fun f => f.parsed_includes) _ i (push_inc j) (fun f => rfl) k,
    fget_modify_at_field (fun f => f.parsed_includes) d j (push_ib i) (fun f => rfl) k]

theorem link_push_includes (d : List FileInfo) (i j k : Nat) (hi : i < d.length) :
    (fget (link_push d i j) k).includes
      = (fget d k).includes ++ (if k = i then [j] else []) := by
  unfold link_push
  by_cases hk : k = i
  · rw [hk, if_pos rfl, fget_modify_at_same _ _ _ (by rw [modify_at_length]; exact hi)]
    show (fget (modify_at d j (push_ib i)) i).includes ++ [j] = (fget d i).includes ++ [j]
    rw [fget_modify_at_field (fun f => f.includes) d j (push_ib i) (fun f => rfl) i]
  · rw [if_neg hk, fget_modify_at_ne _ _ _ _ hk,
      fget_modify_at_field (fun f => f.includes) d j (push_ib i) (fun f => rfl) k,
      List.append_nil]

theorem link_push_included_by (d : List FileInfo) (i j k : Nat) :
    (fget (link_push d i j) k).included_by
      = (fget d k).included_by ++ (if k = j ∧ j < d.length then [i] else []) := by
  unfold link_push
  rw [fget_modify_at_field (fun f => f.included_by) _ i (push_inc j) (fun f => rfl) k]
  by_cases hk : k = j
  · subst hk
    by_cases hlen : k < d.length
    · rw [if_pos ⟨rfl, hlen⟩, fget_modify_at_same _ _ _ hlen]
      rfl
    · rw [if_neg (fun hcon => hlen hcon.2), modify_at_oob _ _ _ (by omega), List.append_nil]
  · rw [if_neg (fun hcon => hk hcon.1), fget_modify_at_ne _ _ _ _ hk, List.append_nil]

theorem link_eq_outer (data : List FileInfo) :
    process_step_link_include data = link_outer data data.length := rfl

theorem fget_cons_succ (x : FileInfo) (t : List FileInfo) (k : Nat) :
    fget (x :: t) (k + 1) = fget t k := by
  unfold fget
  exact List.getD_cons_succ

theorem find_index_congr : ∀ d data : List FileInfo,
    (∀ k : Nat, (fget d k).name = (fget data k).name) → d.length = data.length →
    ∀ nm : List Char, find_index_by_name d nm = find_index_by_name data nm := by
  intro d
  induction d with
  | nil =>
    intro data h hlen nm
    have : data = [] := List.length_eq_zero.mp hlen.symm
    subst this
    rfl
  | cons x t ih =>
    intro data h hlen nm
    cases data with
    | nil => cases hlen
    | cons y u =>
      have hx : x.name = y.name := h 0
      unfold find_index_by_name
      simp only [List.findIdx_cons]
      rw [hx]
      cases hd : decide (y.name = nm) with
      | true => rfl
      | false =>
        simp only [cond_false]
        have hrest := ih u (fun k => by
            have := h (k + 1)
            rw [fget_cons_succ, fget_cons_succ] at this
            exact this)
          (by simpa using hlen) nm
        unfold find_index_by_name at hrest
        rw [hrest]

theorem link_inner_spec (data : List FileInfo) (idx : Nat) (hidx : idx < data.length)
    (hpres : ∀ pi ∈ (fget data idx).parsed_includes,
        find_index_by_name data pi.name < data.length) :
    ∀ m : Nat, m ≤ (fget data idx).parsed_includes.length →
    ∀ d : List FileInfo, d.length = data.length →
    (∀ k : Nat, (fget d k).name = (fget data k).name) →
    (∀ k : Nat, (fget d k).parsed_includes = (fget data k).parsed_includes) →
    (link_inner d idx m).length = data.length ∧
    (∀ k : Nat, (fget (link_inner d idx m) k).name = (fget data k).name) ∧
    (∀ k : Nat, (fget (link_inner d idx m) k).parsed_includes
        = (fget data k).parsed_includes) ∧
    (∀ k : Nat, (fget (link_inner d idx m) k).includes
        = (fget d k).includes
          ++ (if k = idx
              then ((fget data idx).parsed_includes.take m).map
                (fun pi => find_index_by_name data pi.name)
              else [])) ∧
    (∀ k : Nat, (fget (link_inner d idx m) k).included_by
        = (fget d k).included_by
          ++ ((fget data idx).parsed_includes.take m).filterMap
              (fun pi => if find_index_by_name data pi.name = k then some idx
                         else none)) := by
  intro m
  induction m with
  | zero =>
    intro _ d hd hn hp
    refine ⟨hd, hn, hp, ?_, ?_⟩
    · intro k
      simp [link_inner]
    · intro k
      simp [link_inner]
  | succ m ih =>
    intro hm d hd hn hp
    have hmlt : m < (fget data idx).parsed_includes.length := by omega
    obtain ⟨hl, hname, hparsed, hinc, hib⟩ := ih (by omega) d hd hn hp
    have hunf : link_inner d idx (m + 1)
        = (let that_name := ((fget (link_inner d idx m) idx).parsed_includes.getD m
             ⟨[], false⟩).name
           link_push (link_inner d idx m) idx
             (find_index_by_name (link_inner d idx m) that_name)) := by
      unfold link_inner
      rw [List.range_succ, List.foldl_append]
      rfl
    have hgetD : ((fget (link_inner d idx m) idx).parsed_includes).getD m ⟨[], false⟩
        = (fget data idx).parsed_includes.getD m ⟨[], false⟩ := by
      rw [hparsed]
    have hpi_mem : (fget data idx).parsed_includes.getD m ⟨[], false⟩
        ∈ (fget data idx).parsed_includes := by
      rw [List.getD_eq_getElem?_getD, List.getElem?_eq_getElem hmlt]
      exact List.getElem_mem _
    have hres : find_index_by_name (link_inner d idx m)
          ((fget data idx).parsed_includes.getD m ⟨[], false⟩).name
        = find_index_by_name data
          ((fget data idx).parsed_includes.getD m ⟨[], false⟩).name :=
      find_index_congr (link_inner d idx m) data hname hl _
    have hjlt : find_index_by_name data
          ((fget data idx).parsed_includes.getD m ⟨[], false⟩).name < data.length :=
      hpres _ hpi_mem
    rw [hunf]
    simp only [hgetD, hres]
    have htake : (fget data idx).parsed_includes.take (m + 1)
        = (fget data idx).parsed_includes.take m
          ++ [(fget data idx).parsed_includes.getD m ⟨[], false⟩] := by
      rw [List.take_succ, List.getElem?_eq_getElem hmlt]
      rw [List.getD_eq_getElem?_getD, List.getElem?_eq_getElem hmlt]
      rfl
    refine ⟨?_, ?_, ?_, ?_, ?_⟩
    · rw [link_push_length]
      exact hl
    · intro k
      rw [link_push_name]
      exact hname k
    · intro k
      rw [link_push_parsed]
      exact hparsed k
    · intro k
      rw [link_push_includes _ _ _ _ (by rw [hl]; exact hidx), hinc k, htake]
      by_cases hk : k = idx
      · rw [if_pos hk, if_pos hk, if_pos hk, List.map_append, List.append_assoc]
        rfl
      · rw [if_neg hk, if_neg hk, if_neg hk, List.append_nil, List.append_nil]
    · intro k
      rw [link_push_included_by, hib k, htake, List.filterMap_append, List.append_assoc]
      have hcond : (if k = find_index_by_name data
              ((fget data idx).parsed_includes.getD m ⟨[], false⟩).name
            ∧ find_index_by_name data
              ((fget data idx).parsed_includes.getD m ⟨[], false⟩).name
              < (link_inner d idx m).length then [idx] else [])
          = ([(fget data idx).parsed_includes.getD m ⟨[], false⟩].filterMap
              (fun pi => if find_index_by_name data pi.name = k then some idx
                         else none)) := by
        by_cases hfk : find_index_by_name data
            ((fget data idx).parsed_includes.getD m ⟨[], false⟩).name = k
        · rw [if_pos ⟨hfk.symm, by rw [hl]; exact hjlt⟩, List.filterMap_cons, if_pos hfk]
          rfl
        · rw [if_neg (fun hcon => hfk hcon.1.symm), List.filterMap_cons, if_neg hfk]
          rfl
      rw [hcond]

theorem link_outer_spec (data : List FileInfo)
    (hpres : ∀ i : Nat, i < data.length → ∀ pi ∈ (fget data i).parsed_includes,
        find_index_by_name data pi.name < data.length) :
    ∀ K : Nat, K ≤ data.length →
    (link_outer data K).length = data.length ∧
    (∀ k : Nat, (fget (link_outer data K) k).name = (fget data k).name) ∧
    (∀ k : Nat, (fget (link_outer data K) k).parsed_includes
        = (fget data k).parsed_includes) ∧
    (∀ k : Nat, (fget (link_outer data K) k).includes
        = (fget data k).includes
          ++ (if k < K
              then ((fget data k).parsed_includes).map
                (fun pi => find_index_by_name data pi.name)
              else [])) ∧
    (∀ k : Nat, (fget (link_outer data K) k).included_by
        = (fget data k).included_by
          ++ (List.range K).flatMap
              (fun i => ((fget data i).parsed_includes).filterMap
                (fun pi => if find_index_by_name data pi.name = k then some i
                           else none))) := by
  intro K
  induction K with
  | zero =>
    intro _
    refine ⟨rfl, fun k => rfl, fun k => rfl, ?_, ?_⟩
    · intro k
      simp [link_outer]
    · intro k
      simp [link_outer]
  | succ K ih =>
    intro hK
    obtain ⟨hl, hn, hp, hinc, hib⟩ := ih (by omega)
    have hKlt : K < data.length := by omega
    have hunf : link_outer data (K + 1)
        = link_inner (link_outer data K) K
            (fget (link_outer data K) K).parsed_includes.length := by
      unfold link_outer
      rw [List.range_succ, List.foldl_append]
      rfl
    have hplen : (fget (link_outer data K) K).parsed_includes.length
        = (fget data K).parsed_includes.length := by rw [hp]
    obtain ⟨il, iname, iparsed, iinc, iib⟩ :=
      link_inner_spec data K hKlt (hpres K hKlt)
        ((fget (link_outer data K) K).parsed_includes.length) (by rw [hplen])
        (link_outer data K) hl hn hp
    rw [hunf]
    refine ⟨il, iname, iparsed, ?_, ?_⟩
    · intro k
      rw [iinc k, hinc k, List.append_assoc, hplen, List.take_length]
      congr 1
      by_cases hk : k < K
      · rw [if_pos hk, if_pos (by omega : k < K + 1),
          if_neg (by omega : ¬ k = K), List.append_nil]
      · by_cases hk2 : k = K
        · subst hk2
          rw [if_neg hk, if_pos rfl, if_pos (by omega), List.nil_append]
        · rw [if_neg hk, if_neg hk2, if_neg (by omega : ¬ k < K + 1), List.append_nil]
    · intro k
      rw [iib k, hib k, List.append_assoc, hplen, List.take_length]
      congr 1
      rw [List.range_succ, List.flatMap_append]
      congr 1
      simp

theorem fget_mem (data : List FileInfo) (k : Nat) (hk : k < data.length) :
    fget data k ∈ data := by
  unfold fget
  rw [List.getD_eq_getElem?_getD, List.getElem?_eq_getElem hk]
  exact List.getElem_mem _

/-- C2 is false as stated: when a file `#include`s the same target twice,
the linked `includes` list holds the resolved index twice (and the
target's `includedBy` holds the includer twice): the derived relations
are not sets. -/
theorem claim_c2_counterexample : ¬ claim_c2_statement := by
  intro h
  have hcount := (h c2_data (by decide) 1 0).1
  exact absurd hcount (by decide)

/-- C2 amended: after link resolution (on a collection whose edge lists
start empty and whose parsed names all resolve, as stub synthesis
guarantees), the derived edge lists preserve multiplicity instead of
being sets: a file's `includes` is exactly its `parsedIncludes` sequence
resolved occurrence by occurrence, and a file's `includedBy` holds one
copy of includer `i` per occurrence of one of this file's names in `i`'s
`parsedIncludes`, in file order — so a file that is `#include`d `n` times
by the same includer appears `n` times, not once. -/
theorem claim_c2_amended (data : List FileInfo)
    (hempty : ∀ f ∈ data, f.includes = [] ∧ f.included_by = [])
    (hpres : ∀ i : Nat, i < data.length → ∀ pi ∈ (fget data i).parsed_includes,
        find_index_by_name data pi.name < data.length)
    (k : Nat) (hk : k < data.length) :
    (fget (process_step_link_include data) k).includes
        = ((fget data k).parsed_includes).map
            (fun pi => find_index_by_name data pi.name) ∧
    (fget (process_step_link_include data) k).included_by
        = (List.range data.length).flatMap
            (fun i => ((fget data i).parsed_includes).filterMap
              (fun pi => if find_index_by_name data pi.name = k then some i
                         else none)) := by
  obtain ⟨hl, hn, hp, hinc, hib⟩ := link_outer_spec data hpres data.length le_rfl
  have hke := hempty (fget data k) (fget_mem data k hk)
  constructor
  · rw [link_eq_outer, hinc k, hke.1, if_pos hk, List.nil_append]
  · rw [link_eq_outer, hib k, hke.2, List.nil_append]

/-- Closed witness for the amended C2 on the duplicated include: file 1
ends with `includes = [0, 0]`, one entry per parsed occurrence. -/
theorem claim_c2_amended_witness :
    ((fget (process_step_link_include c2_data) 1).includes
        = ((fget c2_data 1).parsed_includes).map
            (fun pi => find_index_by_name c2_data pi.name) ∧
      (fget (process_step_link_include c2_data) 1).included_by
        = (List.range c2_data.length).flatMap
            (fun i => ((fget c2_data i).parsed_includes).filterMap
              (fun pi => if find_index_by_name c2_data pi.name = 1 then some i
                         else none))) ∧
    (fget (process_step_link_include c2_data) 0).included_by = [1, 1] :=
  ⟨claim_c2_amended c2_data (by decide) (by decide) 1 (by decide), by decide⟩
